import Mathlib

set_option maxRecDepth 10000

/-!
# Verification of the huge-page filler specification

A shallow embedding of the huge-page filler's data model and operations.
The repository ships only the test suite (`huge_page_filler_test.cc`) for
this subsystem; the implementation (`huge_page_filler.h`) is not part of
the sources.  Every operational definition below is therefore modelled
from the specification's description of the component, with the concrete
behavior pinned by the expectations of the shipped tests.

Pages inside one huge page are indexed `0, ..., N - 1` where `N` is the
pages-per-huge-page constant (`kPagesPerHugePage`, 256 in the test
configuration).  Bitmaps are modelled as functions `Nat → Bool`; only
indices below `N` are ever consulted.
-/

namespace HPFiller

/-- Number of `true` bits among the first `N` positions of a bitmap. -/
def bcount (N : Nat) (b : Nat → Bool) : Nat :=
  ((Finset.range N).filter (fun i => b i = true)).card

/-- Number of `true` bits of `b` inside the index range `[s, s+len)`. -/
def rangeCount (b : Nat → Bool) (s len : Nat) : Nat :=
  ((Finset.Ico s (s + len)).filter (fun i => b i = true)).card

/-- Set every bit in `[s, s+len)`. -/
def setRange (b : Nat → Bool) (s len : Nat) : Nat → Bool :=
  fun i => if s ≤ i ∧ i < s + len then true else b i

/-- Clear every bit in `[s, s+len)`. -/
def clearRange (b : Nat → Bool) (s len : Nat) : Nat → Bool :=
  fun i => if s ≤ i ∧ i < s + len then false else b i

/-- `true` iff every bit of `b` in `[i, i+len)` is clear. -/
def allClear (b : Nat → Bool) : Nat → Nat → Bool
  | _, 0 => true
  | i, len + 1 => !b i && allClear b (i + 1) len

/-- `true` iff every bit of `b` in `[i, i+len)` is set. -/
def allSet (b : Nat → Bool) : Nat → Nat → Bool
  | _, 0 => true
  | i, len + 1 => b i && allSet b (i + 1) len

/-- `true` iff some bit of `b` in `[i, i+len)` is set. -/
def anySet (b : Nat → Bool) : Nat → Nat → Bool
  | _, 0 => false
  | i, len + 1 => b i || anySet b (i + 1) len

/-! ## The per-huge-page tracker

Modelled from the spec: `PageTracker` of `huge_page_filler.h` is not in the
sources; its fields (`allocated_bitmap`, `released_bitmap`) and operations
(`Get`/allocate, `Put`/free, `ReleaseFree`, `AddSpanStats`) are modelled
from §3 and §4.2 of the specification, with behavior pinned by
`PageTrackerTest` in `huge_page_filler_test.cc`. -/

/-- Tracker state: a bit per page for "currently handed out" and
"currently unmapped from the OS".  Derived statistics are computed from
the bitmaps. -/
structure PageTracker where
  alloc : Nat → Bool
  rel : Nat → Bool

/-- The empty tracker backing a freshly mapped huge page. -/
def PageTracker.empty : PageTracker := ⟨fun _ => false, fun _ => false⟩

/-- Well-formedness: a released page is, by definition, currently free. -/
def TWf (N : Nat) (t : PageTracker) : Prop :=
  ∀ i, i < N → t.rel i = true → t.alloc i = false

def usedPages (N : Nat) (t : PageTracker) : Nat := bcount N t.alloc

def freePages (N : Nat) (t : PageTracker) : Nat :=
  bcount N (fun i => !t.alloc i)

def releasedPages (N : Nat) (t : PageTracker) : Nat := bcount N t.rel

/-- Number of free pages that are still mapped. -/
def freeMappedPages (N : Nat) (t : PageTracker) : Nat :=
  bcount N (fun i => !t.alloc i && !t.rel i)

/-- Fueled first-fit scan (structural recursion so the kernel can
evaluate it). -/
def findFitAux (b : Nat → Bool) (N len : Nat) : Nat → Nat → Option Nat
  | 0, _ => none
  | fuel + 1, i =>
    if i + len ≤ N then
      if allClear b i len then some i else findFitAux b N len fuel (i + 1)
    else none

/-- First-fit search: the lowest start index `r ≥ i` with `r + len ≤ N`
such that all of `[r, r+len)` is clear in `b`. -/
def findFitFrom (b : Nat → Bool) (N len i : Nat) : Option Nat :=
  findFitAux b N len (N + 1 - i) i

/-- Modelled from the spec: `PageTracker::Get` (allocate).  First-fit on
the allocated bitmap; reports `from_released = true` iff any page of the
chosen run is in the released bitmap, and clears those released bits
(the caller remaps them). -/
def PageTracker.get (N : Nat) (t : PageTracker) (len : Nat) :
    Option (Nat × Bool × PageTracker) :=
  match findFitFrom t.alloc N len 0 with
  | none => none
  | some r =>
    some (r, anySet t.rel r len,
      ⟨setRange t.alloc r len, clearRange t.rel r len⟩)

/-- Modelled from the spec: `PageTracker::Put` (free).  Clears the range in
the allocated bitmap; newly free pages stay mapped. -/
def PageTracker.put (t : PageTracker) (s len : Nat) : PageTracker :=
  ⟨clearRange t.alloc s len, t.rel⟩

/-- Legality of a `put`: the whole range is currently allocated. -/
def putLegal (N : Nat) (t : PageTracker) (s len : Nat) : Bool :=
  decide (0 < len) && decide (s + len ≤ N) && allSet t.alloc s len

/-! ### Maximal runs of a bitmap -/

/-- Fueled scan for the length of a run of set bits. -/
def runLenAux (b : Nat → Bool) (N : Nat) : Nat → Nat → Nat
  | 0, _ => 0
  | fuel + 1, i =>
    if i < N then (if b i then runLenAux b N fuel (i + 1) + 1 else 0)
    else 0

/-- Length of the maximal run of set bits of `b` starting at `i`,
bounded by `N`. -/
def runLen (b : Nat → Bool) (N i : Nat) : Nat :=
  runLenAux b N (N - i) i

/-- Fueled scan for maximal runs of set bits. -/
def runsFromAux (b : Nat → Bool) (N : Nat) : Nat → Nat → List (Nat × Nat)
  | 0, _ => []
  | fuel + 1, i =>
    if i < N then
      if b i then
        (i, runLen b N i) :: runsFromAux b N fuel (i + runLen b N i + 1)
      else runsFromAux b N fuel (i + 1)
    else []

/-- The maximal runs of set bits of `b` within `[i, N)`, as
`(start, length)` pairs in increasing order of start. -/
def runsFrom (b : Nat → Bool) (N i : Nat) : List (Nat × Nat) :=
  runsFromAux b N (N - i) i

/-- The maximal runs of pages that are free and not yet released. -/
def freeUnreleasedRuns (N : Nat) (t : PageTracker) : List (Nat × Nat) :=
  runsFrom (fun i => !t.alloc i && !t.rel i) N 0

/-- Apply the injected unmap operation to each run in turn; a successful
run has its released bits set, a failing run is left untouched, and
later runs are still attempted.  Returns the new released bitmap and the
count of newly released pages. -/
def applyRuns (ok : Nat × Nat → Bool) :
    List (Nat × Nat) → (Nat → Bool) → ((Nat → Bool) × Nat)
  | [], rel => (rel, 0)
  | r :: rs, rel =>
    let p := applyRuns ok rs rel
    if ok r then (setRange p.1 r.1 r.2, p.2 + r.2) else p

/-- Modelled from the spec: `PageTracker::ReleaseFree`.  Walks every
maximal run of pages that are free and not yet released and invokes the
injected unmap operation on it; on success the corresponding released
bits are set, on failure they are left clear and the walk continues with
the remaining runs.  Returns the new tracker, the number of pages newly
released, and the list of unmap calls issued. -/
def PageTracker.releaseFree (N : Nat) (t : PageTracker)
    (ok : Nat × Nat → Bool) : PageTracker × Nat × List (Nat × Nat) :=
  let rs := freeUnreleasedRuns N t
  let p := applyRuns ok rs t.rel
  (⟨t.alloc, p.1⟩, p.2, rs)

/-- The maximal runs of pages that are free and released. -/
def freeReleasedRuns (N : Nat) (t : PageTracker) : List (Nat × Nat) :=
  runsFrom (fun i => !t.alloc i && t.rel i) N 0

/-- Span statistics as reported by `AddSpanStats`: histograms for small
runs (length below `maxSmall`, the `kMaxPages` threshold) split by
released state, and aggregate counters for large runs. -/
structure SpanStats where
  normalLength : Nat → Nat
  returnedLength : Nat → Nat
  largeSpans : Nat
  largeNormalPages : Nat
  largeReturnedPages : Nat

/-- Modelled from the spec: `PageTracker::AddSpanStats` is not in the
sources.  Every maximal free run (split by released state, per §4.2) is
reported: runs shorter than `maxSmall` are tallied into the
`normal_length` / `returned_length` histograms, longer runs into the
`large` aggregates.  All scans are bounded at bit `N` by construction
(`runsFrom` never consults an index `≥ N`). -/
def addSpanStats (N maxSmall : Nat) (t : PageTracker) : SpanStats :=
  let nr := freeUnreleasedRuns N t
  let rr := freeReleasedRuns N t
  { normalLength := fun l =>
      if l < maxSmall then (nr.filter (fun r => decide (r.2 = l))).length else 0
    returnedLength := fun l =>
      if l < maxSmall then (rr.filter (fun r => decide (r.2 = l))).length else 0
    largeSpans := (nr.filter (fun r => decide (maxSmall ≤ r.2))).length
      + (rr.filter (fun r => decide (maxSmall ≤ r.2))).length
    largeNormalPages :=
      ((nr.filter (fun r => decide (maxSmall ≤ r.2))).map (fun r => r.2)).sum
    largeReturnedPages :=
      ((rr.filter (fun r => decide (maxSmall ≤ r.2))).map (fun r => r.2)).sum }

/-- A tracker whose only free page is the last index `N - 1`, nothing
released (the `b151915873` boundary configuration). -/
def lastFree (N : Nat) : PageTracker :=
  ⟨fun i => decide (i + 1 ≠ N), fun _ => false⟩

/-! ## Skip-subrelease policy

Modelled from the spec (§4.7): `SkipSubreleaseIntervals` and the
protected-pages computation of `huge_page_subrelease.h` /
`huge_page_filler.h` are not in the sources. -/

/-- Up to three durations (in epochs); zero means "not used". -/
structure SkipSubreleaseIntervals where
  peakInterval : Nat
  shortInterval : Nat
  longInterval : Nat

/-- One demand epoch: minimum and maximum pages in use during it. -/
structure DemandSample where
  minDemand : Nat
  maxDemand : Nat

/-- Maximum of `g` over the most recent `k` epochs of the history
(most recent first); 0 on an empty window. -/
def maxOver (k : Nat) (g : DemandSample → Nat) (hist : List DemandSample) : Nat :=
  ((hist.take k).map g).foldr max 0

/-- Modelled from the spec: pages protected from release.  If
`peak_interval > 0` the recent demand peak minus current use (clamped at
0, via truncated subtraction); otherwise the short/long decomposition;
otherwise 0 (feature disabled). -/
def protectedPages (iv : SkipSubreleaseIntervals) (hist : List DemandSample)
    (used : Nat) : Nat :=
  if 0 < iv.peakInterval then
    maxOver iv.peakInterval (fun s => s.maxDemand) hist - used
  else if 0 < iv.shortInterval ∨ 0 < iv.longInterval then
    maxOver iv.longInterval (fun s => s.minDemand) hist
      + maxOver iv.shortInterval (fun s => s.maxDemand - s.minDemand) hist
      - used
  else 0

/-! ## The filler and its release engine

Modelled from the spec: `HugePageFiller` of `huge_page_filler.h` is not
in the sources; the tracker-list routing (§4.3-4.4), the release engine
(§4.6) and the statistics (§4.8) are modelled from the specification,
pinned by `FillerTest`. -/

/-- A tracker held by the filler, with its routing metadata: the
access-density class it is bucketed under (`true` = dense) and whether
it is still in the sticky donated state. -/
structure FEntry where
  pt : PageTracker
  density : Bool
  donated : Bool

/-- Candidate ordering for the release engine: fewest used pages first
(most-empty first). -/
def usedLE (N : Nat) (e e' : FEntry) : Prop :=
  usedPages N e.pt ≤ usedPages N e'.pt

instance (N : Nat) : DecidableRel (usedLE N) :=
  fun _ _ => Nat.decLe _ _

instance (N : Nat) : IsTotal FEntry (usedLE N) :=
  ⟨fun _ _ => Nat.le_total _ _⟩

instance (N : Nat) : IsTrans FEntry (usedLE N) :=
  ⟨fun _ _ _ h h' => Nat.le_trans h h'⟩

/-- Walk the candidates in order; as long as the remaining target is
positive, ask each tracker to `release_free` all its free pages.
Returns the processed list, the released count and all unmap calls. -/
def releaseLoop (N : Nat) (ok : Nat × Nat → Bool) :
    List FEntry → Nat → (List FEntry × Nat × List (Nat × Nat))
  | [], _ => ([], 0, [])
  | e :: es, target =>
    if target = 0 then (e :: es, 0, [])
    else
      let p := e.pt.releaseFree N ok
      let q := releaseLoop N ok es (target - p.2.1)
      ({ e with pt := p.1 } :: q.1, p.2.1 + q.2.1, p.2.2 ++ q.2.2)

/-- The filler: its trackers plus the incrementally maintained counters
(`size_`, `pages_allocated_`, `unmapped_`, `unmapping_unaccounted_`). -/
structure Filler where
  trackers : List FEntry
  sizeHP : Nat
  allocated : Nat
  unmapped : Nat
  unaccounted : Nat

def Filler.empty : Filler := ⟨[], 0, 0, 0, 0⟩

/-- Mapped-free pages, from the incremental counters
(`size * N - allocated - unmapped`). -/
def Filler.freePages (N : Nat) (f : Filler) : Nat :=
  f.sizeHP * N - f.allocated - f.unmapped

/-- Modelled from the spec: `HugePageFiller::ReleasePages` (§4.6).
Pages already unmapped out-of-band (`unmapping_unaccounted_`) are
credited first; the skip-subrelease policy caps the effective target at
`min(desired - credit, free - protected)`; candidates are walked
most-empty first, each releasing all of its free pages, until the
target is reached.  Returns the new filler state, the released count
(credit included) and the unmap calls issued. -/
def Filler.releasePages (N : Nat) (f : Filler) (desired : Nat)
    (iv : SkipSubreleaseIntervals) (hist : List DemandSample)
    (ok : Nat × Nat → Bool) : Filler × Nat × List (Nat × Nat) :=
  let credit := f.unaccounted
  let prot := protectedPages iv hist f.allocated
  let target := min (desired - credit) (f.freePages N - prot)
  let sorted := List.insertionSort (usedLE N) f.trackers
  let q := releaseLoop N ok sorted target
  ({ trackers := q.1, sizeHP := f.sizeHP, allocated := f.allocated,
     unmapped := f.unmapped + q.2.1, unaccounted := 0 },
   credit + q.2.1, q.2.2)

/-- A sequence of `release_pages` calls (desired count, intervals and
demand history per call), with an always-succeeding unmap. -/
def releaseSeq (N : Nat) :
    List (Nat × SkipSubreleaseIntervals × List DemandSample) → Filler → Filler
  | [], f => f
  | c :: cs, f =>
    releaseSeq N cs (f.releasePages N c.1 c.2.1 c.2.2 (fun _ => true)).1

/-- The release-priority invariant: whenever some tracker has been
subreleased, every candidate (a tracker that still has free pages) with
strictly fewer used pages has been subreleased as well. -/
def releasedDownClosed (N : Nat) (ts : List FEntry) : Prop :=
  ∀ e ∈ ts, ∀ e' ∈ ts,
    0 < releasedPages N e.pt → 0 < freePages N e'.pt →
    usedPages N e'.pt < usedPages N e.pt → 0 < releasedPages N e'.pt

/-- Tracker-list buckets (§4.3). -/
inductive Bucket
  | regularFull
  | regularPartial
  | partialReleased
  | fullyReleased
  | donated
deriving DecidableEq

/-- Modelled from the spec (§4.3): the bucket classifier.  The donated
state is sticky until the tracker is first allocated from via a
non-donation path. -/
def bucketOf (N : Nat) (e : FEntry) : Bucket :=
  if e.donated then .donated
  else if releasedPages N e.pt = 0 then
    (if freePages N e.pt = 0 then .regularFull else .regularPartial)
  else if freePages N e.pt = releasedPages N e.pt then .fullyReleased
  else .partialReleased

/-- Whether entry `e` may serve a request of density `d` (`true` =
dense) while the search is scanning bucket `b`: the donated bucket is
reachable only by sparse requests, other buckets only within the
matching density class. -/
def entryMatches (N : Nat) (d : Bool) (b : Bucket) (e : FEntry) : Bool :=
  bucketOf N e == b && (if b == Bucket.donated then !d else e.density == d)

/-- Scan one bucket for the first tracker that can take the request;
returns its index, the page, the `from_released` flag and the updated
tracker. -/
def findInBucket (N len : Nat) (d : Bool) (b : Bucket) :
    List FEntry → Option (Nat × Nat × Bool × PageTracker)
  | [] => none
  | e :: es =>
    if entryMatches N d b e then
      match e.pt.get N len with
      | some (p, fr, pt') => some (0, p, fr, pt')
      | none =>
        match findInBucket N len d b es with
        | none => none
        | some q => some (q.1 + 1, q.2)
    else
      match findInBucket N len d b es with
      | none => none
      | some q => some (q.1 + 1, q.2)

/-- The bucket search order (§4.4): partial, then released-partial, then
fully-released, then (for sparse requests only) donated. -/
def allocOrder (d : Bool) : List Bucket :=
  if d then [.regularPartial, .partialReleased, .fullyReleased]
  else [.regularPartial, .partialReleased, .fullyReleased, .donated]

def searchBuckets (N len : Nat) (d : Bool) (ts : List FEntry) :
    List Bucket → Option (Nat × Nat × Bool × PageTracker)
  | [] => none
  | b :: bs =>
    match findInBucket N len d b ts with
    | some q => some q
    | none => searchBuckets N len d ts bs

/-- Modelled from the spec: `HugePageFiller::TryGet` (§4.4).  Walks the
buckets in priority order for the request's density, allocates from the
first tracker that fits, demotes a donated tracker to regular, and
maintains the counters.  Returns the new filler, the chosen tracker's
index, the page and the `from_released` flag; `none` asks the caller to
supply a fresh huge page. -/
def Filler.tryGet (N : Nat) (f : Filler) (len : Nat) (d : Bool) :
    Option (Filler × Nat × Nat × Bool) :=
  (searchBuckets N len d f.trackers (allocOrder d)).bind (fun q =>
    (f.trackers[q.1]?).map (fun e =>
      ({ trackers := f.trackers.set q.1 ⟨q.2.2.2, e.density, false⟩
         sizeHP := f.sizeHP
         allocated := f.allocated + len
         unmapped := f.unmapped - rangeCount e.pt.rel q.2.1 len
         unaccounted := f.unaccounted }, q.1, q.2.1, q.2.2.1)))

/-- Modelled from the spec: `HugePageFiller::Contribute`.  The caller
hands over a freshly created tracker (already holding its first
allocation). -/
def Filler.contribute (N : Nat) (f : Filler) (pt : PageTracker)
    (donated d : Bool) : Filler :=
  { trackers := f.trackers ++ [⟨pt, d, donated⟩]
    sizeHP := f.sizeHP + 1
    allocated := f.allocated + usedPages N pt
    unmapped := f.unmapped + releasedPages N pt
    unaccounted := f.unaccounted }

/-- Modelled from the spec: `HugePageFiller::Put` (§4.5).  Frees the
range on tracker `i`; if the tracker becomes empty it is removed and
handed back for recycling, and when it still had released pages its
remaining mapped free pages are unmapped out-of-band and credited to
`unmapping_unaccounted_` (the `ReleaseAccounting` behavior). -/
def Filler.putRange (N : Nat) (f : Filler) (i s len : Nat) : Option Filler :=
  (f.trackers[i]?).bind (fun e =>
    if putLegal N e.pt s len then
      let pt' := e.pt.put s len
      if usedPages N pt' = 0 then
        some { trackers := f.trackers.take i ++ f.trackers.drop (i + 1)
               sizeHP := f.sizeHP - 1
               allocated := f.allocated - len
               unmapped := f.unmapped - releasedPages N pt'
               unaccounted := f.unaccounted
                 + (if 0 < releasedPages N pt' then freeMappedPages N pt'
                    else 0) }
      else
        some { trackers := f.trackers.set i ⟨pt', e.density, e.donated⟩
               sizeHP := f.sizeHP
               allocated := f.allocated - len
               unmapped := f.unmapped
               unaccounted := f.unaccounted }
    else none)

/-- A legal filler operation: allocation through `try_get` (failure to
fit is illegal — the caller would `contribute` instead), contribution of
a fresh huge page holding an initial allocation, a free, or a release
call. -/
inductive FOp where
  | tryget (len : Nat) (dense : Bool)
  | contribute (len : Nat) (donated dense : Bool)
  | putRange (i s len : Nat)
  | release (desired : Nat) (iv : SkipSubreleaseIntervals)
      (hist : List DemandSample) (ok : Nat × Nat → Bool)

def applyFOp (N : Nat) (f : Filler) : FOp → Option Filler
  | .tryget len d => (f.tryGet N len d).map (fun q => q.1)
  | .contribute len donated d =>
    match PageTracker.empty.get N len with
    | none => none
    | some (_, _, pt) => some (f.contribute N pt donated d)
  | .putRange i s len => f.putRange N i s len
  | .release desired iv hist ok =>
    some (f.releasePages N desired iv hist ok).1

def runFOps (N : Nat) : List FOp → Filler → Option Filler
  | [], f => some f
  | op :: ops, f =>
    match applyFOp N f op with
    | none => none
    | some f' => runFOps N ops f'

/-- A sequence of dense allocation requests; a request that finds no fit
leaves the filler unchanged (the caller would contribute a fresh huge
page instead). -/
def runDense (N : Nat) : List Nat → Filler → Filler
  | [], f => f
  | len :: lens, f =>
    match f.tryGet N len true with
    | none => runDense N lens f
    | some r => runDense N lens r.1

/-- Conventional page size in bytes (8 KiB pages as in the test
configuration; the aggregation statements hold for any constant). -/
def pageBytes : Nat := 8192

structure FillerStats where
  systemBytes : Nat
  freeBytes : Nat
  unmappedBytes : Nat
  usedBytes : Nat

/-- Modelled from the spec: `stats()` (§4.8), computed from the
incrementally maintained counters. -/
def Filler.stats (N : Nat) (f : Filler) : FillerStats :=
  { systemBytes := f.sizeHP * N * pageBytes
    freeBytes := (f.sizeHP * N - f.allocated - f.unmapped) * pageBytes
    unmappedBytes := f.unmapped * pageBytes
    usedBytes := f.allocated * pageBytes }

/-- The filler's internal coherence: every tracker is well-formed and
the incremental counters agree with the per-tracker sums. -/
def FInv (N : Nat) (f : Filler) : Prop :=
  (∀ e ∈ f.trackers, TWf N e.pt)
  ∧ f.sizeHP = f.trackers.length
  ∧ f.allocated = (f.trackers.map (fun e => usedPages N e.pt)).sum
  ∧ f.unmapped = (f.trackers.map (fun e => releasedPages N e.pt)).sum

instance (N : Nat) (t : PageTracker) : Decidable (TWf N t) :=
  inferInstanceAs (Decidable (∀ i, i < N → t.rel i = true → t.alloc i = false))

instance (N : Nat) (ts : List FEntry) : Decidable (releasedDownClosed N ts) :=
  inferInstanceAs (Decidable (∀ e ∈ ts, ∀ e' ∈ ts,
    0 < releasedPages N e.pt → 0 < freePages N e'.pt →
    usedPages N e'.pt < usedPages N e.pt → 0 < releasedPages N e'.pt))

/-- Number of `true` bits of `b` in `[a, c)`. -/
def bcountIco (a c : Nat) (b : Nat → Bool) : Nat :=
  ((Finset.Ico a c).filter (fun i => b i = true)).card

/-- One-tracker filler used for the engine counterexamples: at `N = 8`,
pages `[0,4)` are allocated, `[4,8)` free and mapped. -/
def cexFiller : Filler :=
  { trackers := [⟨⟨fun i => decide (i < 4), fun _ => false⟩, false, false⟩]
    sizeHP := 1, allocated := 4, unmapped := 0, unaccounted := 0 }

/-- Two-tracker filler at `N = 4` for the release-priority witness:
used pages 2 and 1, nothing released. -/
def c4Filler : Filler :=
  { trackers := [⟨⟨fun i => decide (i < 2), fun _ => false⟩, false, false⟩,
                 ⟨⟨fun i => decide (i = 0), fun _ => false⟩, false, false⟩]
    sizeHP := 2, allocated := 3, unmapped := 0, unaccounted := 0 }

/-- The C9 round-trip scenario: a tracker holding two allocations
`[0, n1)` and `[n1, n1+n2)` is contributed with density `d`; the first
range is then freed through the filler, and a release call unmaps
everything free. -/
def roundTripFiller (N n1 n2 : Nat) (d : Bool) : Filler :=
  let t : PageTracker := ⟨fun i => decide (i < n1 + n2), fun _ => false⟩
  let f0 := Filler.empty.contribute N t false d
  let f1 := (f0.putRange N 0 0 n1).getD Filler.empty
  (f1.releasePages N N ⟨0, 0, 0⟩ [] (fun _ => true)).1

/-! ## Concrete scenario states

The `ReleasingRetainFailure` scenario of `huge_page_filler_test.cc`
(lines 381-418) with `kPagesPerHugePage = 256`, `kAllocSize = 64`:
four allocations `a1 = 61`, `a2 = 64`, `a3 = 65`, `a4 = 66` pages fill
the huge page as `[A][B][C][D]`. -/

/-- Run `get` and keep only the new tracker state (scenario plumbing). -/
def getT (N : Nat) (t : PageTracker) (len : Nat) : PageTracker :=
  match t.get N len with
  | none => t
  | some (_, _, t') => t'

/-- Tracker with `[A][B][C][D]` fully allocated (`N = 256`). -/
def trFull : PageTracker :=
  getT 256 (getT 256 (getT 256 (getT 256 PageTracker.empty 61) 64) 65) 66

/-- `[A][free B][C][free D]`: ranges `B = [61,125)` and `D = [190,256)`
freed. -/
def trBD : PageTracker := (trFull.put 61 64).put 190 66

/-- First `release_free` as the test drives it: the unmap of `B`
succeeds and the unmap of `D` fails. -/
def trRel1 : PageTracker :=
  (trBD.releaseFree 256 (fun r => decide (r.1 = 61))).1

/-- Then `A = [0,61)` and `C = [125,190)` are freed. -/
def trAC : PageTracker := (trRel1.put 0 61).put 125 65

/-- Second `release_free`: the unmap of `A` succeeds, the coalesced
unmap of `C ∪ D` fails. -/
def trRel2 : PageTracker × Nat × List (Nat × Nat) :=
  trAC.releaseFree 256 (fun r => decide (r.1 = 0))

/-- The scenario exactly as claim C3 words it: the first `release_free`
succeeds for `B` and for `D` (both become released). -/
def trRel1Claim : PageTracker := (trBD.releaseFree 256 (fun _ => true)).1

/-- Claimed scenario, after freeing `A` and `C`. -/
def trACClaim : PageTracker := (trRel1Claim.put 0 61).put 125 65

/-- Claimed scenario, second `release_free` with the `A` unmap
succeeding and every other unmap failing. -/
def trRel2Claim : PageTracker × Nat × List (Nat × Nat) :=
  trACClaim.releaseFree 256 (fun r => decide (r.1 = 0))

/-! ## Basic counting lemmas -/

theorem bcount_add_compl (N : Nat) (b : Nat → Bool) :
    bcount N b + bcount N (fun i => !b i) = N := by
  unfold bcount
  have h := Finset.filter_card_add_filter_neg_card_eq_card
    (p := fun i : Nat => b i = true) (s := Finset.range N)
  rw [Finset.card_range] at h
  have heq : (Finset.range N).filter (fun i => (!b i) = true)
      = (Finset.range N).filter (fun i => ¬(b i = true)) := by
    apply Finset.filter_congr
    intro i _
    cases b i <;> simp
  rw [heq]
  exact h

theorem bcount_le (N : Nat) (b : Nat → Bool) : bcount N b ≤ N := by
  calc bcount N b ≤ (Finset.range N).card := Finset.card_filter_le _ _
  _ = N := Finset.card_range N

theorem bcount_congr (N : Nat) (b b' : Nat → Bool)
    (h : ∀ i, i < N → b i = b' i) : bcount N b = bcount N b' := by
  unfold bcount
  congr 1
  apply Finset.filter_congr
  intro i hi
  rw [h i (Finset.mem_range.mp hi)]

theorem bcount_mono (N : Nat) (b b' : Nat → Bool)
    (h : ∀ i, i < N → b i = true → b' i = true) :
    bcount N b ≤ bcount N b' := by
  unfold bcount
  apply Finset.card_le_card
  intro i hi
  simp only [Finset.mem_filter, Finset.mem_range] at hi ⊢
  exact ⟨hi.1, h i hi.1 hi.2⟩

/-- Setting a range of clear bits adds exactly `len` to the count. -/
theorem bcount_setRange (N : Nat) (b : Nat → Bool) (s len : Nat)
    (hle : s + len ≤ N) (hclear : ∀ i, s ≤ i → i < s + len → b i = false) :
    bcount N (setRange b s len) = bcount N b + len := by
  unfold bcount
  have hsplit : (Finset.range N).filter (fun i => setRange b s len i = true)
      = ((Finset.range N).filter (fun i => b i = true)) ∪ Finset.Ico s (s + len) := by
    ext i
    simp only [Finset.mem_filter, Finset.mem_range, Finset.mem_union, Finset.mem_Ico,
      setRange]
    constructor
    · rintro ⟨hi, hset⟩
      by_cases hmem : s ≤ i ∧ i < s + len
      · exact Or.inr hmem
      · rw [if_neg hmem] at hset
        exact Or.inl ⟨hi, hset⟩
    · rintro (⟨hi, hb⟩ | hmem)
      · refine ⟨hi, ?_⟩
        by_cases hmem : s ≤ i ∧ i < s + len
        · rw [if_pos hmem]
        · rw [if_neg hmem]; exact hb
      · refine ⟨lt_of_lt_of_le hmem.2 hle, ?_⟩
        rw [if_pos hmem]
  rw [hsplit, Finset.card_union_of_disjoint, Nat.card_Ico]
  · omega
  · rw [Finset.disjoint_left]
    intro i hi hmem
    simp only [Finset.mem_filter, Finset.mem_range] at hi
    simp only [Finset.mem_Ico] at hmem
    rw [hclear i hmem.1 hmem.2] at hi
    exact absurd hi.2 (by simp)

/-- Clearing a range removes exactly the set bits it contained. -/
theorem bcount_clearRange (N : Nat) (b : Nat → Bool) (s len : Nat)
    (hle : s + len ≤ N) :
    bcount N (clearRange b s len) + rangeCount b s len = bcount N b := by
  unfold bcount rangeCount
  have hsplit : (Finset.range N).filter (fun i => b i = true)
      = ((Finset.range N).filter (fun i => clearRange b s len i = true))
        ∪ ((Finset.Ico s (s + len)).filter (fun i => b i = true)) := by
    ext i
    simp only [Finset.mem_filter, Finset.mem_range, Finset.mem_union, Finset.mem_Ico,
      clearRange]
    constructor
    · rintro ⟨hi, hb⟩
      by_cases hmem : s ≤ i ∧ i < s + len
      · exact Or.inr ⟨hmem, hb⟩
      · exact Or.inl ⟨hi, by rw [if_neg hmem]; exact hb⟩
    · rintro (⟨hi, hcl⟩ | ⟨hmem, hb⟩)
      · refine ⟨hi, ?_⟩
        by_cases hmem : s ≤ i ∧ i < s + len
        · rw [if_pos hmem] at hcl; exact absurd hcl (by simp)
        · rw [if_neg hmem] at hcl; exact hcl
      · exact ⟨lt_of_lt_of_le hmem.2 hle, hb⟩
  rw [hsplit, Finset.card_union_of_disjoint]
  rw [Finset.disjoint_left]
  intro i hi hmem
  simp only [Finset.mem_filter, Finset.mem_range, clearRange] at hi
  simp only [Finset.mem_filter, Finset.mem_Ico] at hmem
  rw [if_pos hmem.1] at hi
  exact absurd hi.2 (by simp)

theorem rangeCount_le (b : Nat → Bool) (s len : Nat) :
    rangeCount b s len ≤ len := by
  calc rangeCount b s len ≤ (Finset.Ico s (s + len)).card := Finset.card_filter_le _ _
  _ = len := by rw [Nat.card_Ico]; omega

theorem allClear_iff (b : Nat → Bool) (i len : Nat) :
    allClear b i len = true ↔ ∀ j, i ≤ j → j < i + len → b j = false := by
  induction len generalizing i with
  | zero => simp [allClear]; omega
  | succ n ih =>
    simp only [allClear, Bool.and_eq_true, Bool.not_eq_true']
    constructor
    · rintro ⟨hbi, hrest⟩ j hj hjlt
      rcases Nat.eq_or_lt_of_le hj with rfl | hlt
      · exact hbi
      · exact (ih (i + 1)).mp hrest j hlt (by omega)
    · intro h
      refine ⟨h i (le_refl i) (by omega), (ih (i + 1)).mpr ?_⟩
      intro j hj hjlt
      exact h j (by omega) (by omega)

theorem allSet_iff (b : Nat → Bool) (i len : Nat) :
    allSet b i len = true ↔ ∀ j, i ≤ j → j < i + len → b j = true := by
  induction len generalizing i with
  | zero => simp [allSet]; omega
  | succ n ih =>
    simp only [allSet, Bool.and_eq_true]
    constructor
    · rintro ⟨hbi, hrest⟩ j hj hjlt
      rcases Nat.eq_or_lt_of_le hj with rfl | hlt
      · exact hbi
      · exact (ih (i + 1)).mp hrest j hlt (by omega)
    · intro h
      refine ⟨h i (le_refl i) (by omega), (ih (i + 1)).mpr ?_⟩
      intro j hj hjlt
      exact h j (by omega) (by omega)

theorem anySet_iff (b : Nat → Bool) (i len : Nat) :
    anySet b i len = true ↔ ∃ j, i ≤ j ∧ j < i + len ∧ b j = true := by
  induction len generalizing i with
  | zero => simp [anySet]; omega
  | succ n ih =>
    simp only [anySet, Bool.or_eq_true]
    constructor
    · rintro (hbi | hrest)
      · exact ⟨i, le_refl i, by omega, hbi⟩
      · obtain ⟨j, hj1, hj2, hj3⟩ := (ih (i + 1)).mp hrest
        exact ⟨j, by omega, by omega, hj3⟩
    · rintro ⟨j, hj1, hj2, hj3⟩
      rcases Nat.eq_or_lt_of_le hj1 with rfl | hlt
      · exact Or.inl hj3
      · exact Or.inr ((ih (i + 1)).mpr ⟨j, hlt, by omega, hj3⟩)

/-! ## Run-scanning lemmas -/

theorem runLen_eq (b : Nat → Bool) (N i : Nat) :
    runLen b N i
      = if i < N then (if b i then runLen b N (i + 1) + 1 else 0) else 0 := by
  unfold runLen
  by_cases hi : i < N
  · have hk : N - i = (N - (i + 1)) + 1 := by omega
    rw [hk]
    simp only [runLenAux, if_pos hi]
  · have hk : N - i = 0 := by omega
    rw [hk]
    simp only [runLenAux, if_neg hi]

theorem runLen_pos (b : Nat → Bool) (N i : Nat) (hi : i < N)
    (hb : b i = true) : 1 ≤ runLen b N i := by
  rw [runLen_eq, if_pos hi, if_pos hb]
  omega

theorem runLen_le (b : Nat → Bool) (N : Nat) : ∀ i, runLen b N i ≤ N - i := by
  have H : ∀ k i, N - i ≤ k → runLen b N i ≤ N - i := by
    intro k
    induction k with
    | zero =>
      intro i h
      rw [runLen_eq, if_neg (by omega)]
      omega
    | succ k ih =>
      intro i h
      rw [runLen_eq]
      by_cases hi : i < N
      · rw [if_pos hi]
        by_cases hb : b i = true
        · rw [if_pos hb]
          have := ih (i + 1) (by omega)
          omega
        · rw [if_neg hb]
          omega
      · rw [if_neg hi]
        omega
  intro i
  exact H (N - i) i (le_refl _)

theorem runLen_true (b : Nat → Bool) (N : Nat) :
    ∀ i j, i ≤ j → j < i + runLen b N i → b j = true := by
  have H : ∀ k i, N - i ≤ k →
      ∀ j, i ≤ j → j < i + runLen b N i → b j = true := by
    intro k
    induction k with
    | zero =>
      intro i h j hij hlt
      rw [runLen_eq, if_neg (by omega)] at hlt
      omega
    | succ k ih =>
      intro i h j hij hlt
      rw [runLen_eq] at hlt
      by_cases hi : i < N
      · rw [if_pos hi] at hlt
        by_cases hb : b i = true
        · rw [if_pos hb] at hlt
          rcases Nat.eq_or_lt_of_le hij with rfl | hgt
          · exact hb
          · exact ih (i + 1) (by omega) j hgt (by omega)
        · rw [if_neg hb] at hlt
          omega
      · rw [if_neg hi] at hlt
        omega
  intro i
  exact H (N - i) i (le_refl _)

theorem runLen_end (b : Nat → Bool) (N : Nat) :
    ∀ i, i ≤ N → i + runLen b N i = N ∨ b (i + runLen b N i) = false := by
  have H : ∀ k i, N - i ≤ k → i ≤ N →
      i + runLen b N i = N ∨ b (i + runLen b N i) = false := by
    intro k
    induction k with
    | zero =>
      intro i h hiN
      rw [runLen_eq, if_neg (by omega)]
      left
      omega
    | succ k ih =>
      intro i h hiN
      rw [runLen_eq]
      by_cases hi : i < N
      · rw [if_pos hi]
        by_cases hb : b i = true
        · rw [if_pos hb]
          have := ih (i + 1) (by omega) (by omega)
          rcases this with h1 | h2
          · left; omega
          · right
            have : i + (runLen b N (i + 1) + 1) = (i + 1) + runLen b N (i + 1) := by
              omega
            rw [this]
            exact h2
        · rw [if_neg hb]
          right
          simpa using hb
      · rw [if_neg hi]
        left
        omega
  intro i
  exact H (N - i) i (le_refl _)

theorem runsFrom_eq (b : Nat → Bool) (N i : Nat) :
    runsFrom b N i
      = if i < N then
          (if b i then
            (i, runLen b N i) :: runsFrom b N (i + runLen b N i + 1)
          else runsFrom b N (i + 1))
        else [] := by
  have H : ∀ fuel i, N - i ≤ fuel → runsFromAux b N fuel i = runsFrom b N i := by
    intro fuel
    induction fuel using Nat.strong_induction_on with
    | _ fuel ih =>
      intro i hfy
      match fuel with
      | 0 =>
        unfold runsFrom
        have h0 : N - i = 0 := by omega
        rw [h0]
      | fuel + 1 =>
        by_cases hi : i < N
        · have hNi : N - i = (N - i - 1) + 1 := by omega
          unfold runsFrom
          rw [hNi]
          simp only [runsFromAux, if_pos hi]
          by_cases hb : b i = true
          · rw [if_pos hb, if_pos hb]
            congr 1
            have hrl := runLen_pos b N i hi hb
            have h1 := ih fuel (by omega) (i + runLen b N i + 1) (by omega)
            have h2 := ih (N - i - 1) (by omega) (i + runLen b N i + 1) (by omega)
            rw [h1, h2]
          · rw [if_neg hb, if_neg hb]
            have h1 := ih fuel (by omega) (i + 1) (by omega)
            have h2 := ih (N - i - 1) (by omega) (i + 1) (by omega)
            rw [h1, h2]
        · unfold runsFrom
          have h0 : N - i = 0 := by omega
          rw [h0]
          simp only [runsFromAux, if_neg hi]
  by_cases hi : i < N
  · rw [if_pos hi]
    unfold runsFrom
    have hNi : N - i = (N - i - 1) + 1 := by omega
    rw [hNi]
    simp only [runsFromAux, if_pos hi]
    by_cases hb : b i = true
    · rw [if_pos hb, if_pos hb]
      congr 1
      exact H (N - i - 1) (i + runLen b N i + 1)
        (by have := runLen_pos b N i hi hb; omega)
    · rw [if_neg hb, if_neg hb]
      exact H (N - i - 1) (i + 1) (by omega)
  · rw [if_neg hi]
    unfold runsFrom
    have h0 : N - i = 0 := by omega
    rw [h0]
    simp only [runsFromAux]

/-- Every reported run starts at a set bit at or after the scan start and
has exactly the maximal run length. -/
theorem runsFrom_sound (b : Nat → Bool) (N : Nat) :
    ∀ i r, r ∈ runsFrom b N i →
      i ≤ r.1 ∧ r.1 < N ∧ b r.1 = true ∧ r.2 = runLen b N r.1 := by
  have H : ∀ k i, N - i ≤ k → ∀ r, r ∈ runsFrom b N i →
      i ≤ r.1 ∧ r.1 < N ∧ b r.1 = true ∧ r.2 = runLen b N r.1 := by
    intro k
    induction k using Nat.strong_induction_on with
    | _ k ih =>
      intro i hk r hr
      rw [runsFrom_eq] at hr
      by_cases hi : i < N
      · rw [if_pos hi] at hr
        by_cases hb : b i = true
        · rw [if_pos hb] at hr
          rcases List.mem_cons.mp hr with rfl | htail
          · exact ⟨le_refl _, hi, hb, rfl⟩
          · have hL := runLen_pos b N i hi hb
            have hk' : N - (i + runLen b N i + 1) < k := by
              have := runLen_le b N i
              omega
            have := ih (N - (i + runLen b N i + 1)) (by omega) _ (le_refl _) r htail
            exact ⟨by omega, this.2.1, this.2.2⟩
        · rw [if_neg hb] at hr
          have hk' : N - (i + 1) < k := by omega
          have := ih (N - (i + 1)) (by omega) _ (le_refl _) r hr
          exact ⟨by omega, this.2.1, this.2.2⟩
      · rw [if_neg hi] at hr
        exact absurd hr (List.not_mem_nil r)
  intro i
  exact H (N - i) i (le_refl _)

/-- Pages inside a reported run are all set. -/
theorem runsFrom_run_true (b : Nat → Bool) (N i : Nat) (r : Nat × Nat)
    (hr : r ∈ runsFrom b N i) :
    ∀ j, r.1 ≤ j → j < r.1 + r.2 → b j = true := by
  have h := runsFrom_sound b N i r hr
  intro j hj hjlt
  rw [h.2.2.2] at hjlt
  exact runLen_true b N r.1 j hj hjlt

/-- A run stays inside the bitmap and is nonempty. -/
theorem runsFrom_run_bounds (b : Nat → Bool) (N i : Nat) (r : Nat × Nat)
    (hr : r ∈ runsFrom b N i) : r.1 + r.2 ≤ N ∧ 1 ≤ r.2 := by
  have h := runsFrom_sound b N i r hr
  constructor
  · rw [h.2.2.2]
    have := runLen_le b N r.1
    omega
  · rw [h.2.2.2]
    exact runLen_pos b N r.1 h.2.1 h.2.2.1

/-- Reported runs are pairwise separated by at least one clear bit. -/
theorem runsFrom_pairwise (b : Nat → Bool) (N : Nat) :
    ∀ i, List.Pairwise (fun r r' => r.1 + r.2 + 1 ≤ r'.1) (runsFrom b N i) := by
  have H : ∀ k i, N - i ≤ k →
      List.Pairwise (fun r r' : Nat × Nat => r.1 + r.2 + 1 ≤ r'.1)
        (runsFrom b N i) := by
    intro k
    induction k using Nat.strong_induction_on with
    | _ k ih =>
      intro i hk
      rw [runsFrom_eq]
      by_cases hi : i < N
      · rw [if_pos hi]
        by_cases hb : b i = true
        · rw [if_pos hb]
          have hL := runLen_pos b N i hi hb
          have hle := runLen_le b N i
          refine List.Pairwise.cons ?_ ?_
          · intro r hr
            have := runsFrom_sound b N _ r hr
            simpa using this.1
          · exact ih (N - (i + runLen b N i + 1)) (by omega) _ (le_refl _)
        · rw [if_neg hb]
          exact ih (N - (i + 1)) (by omega) _ (le_refl _)
      · rw [if_neg hi]
        exact List.Pairwise.nil
  intro i
  exact H (N - i) i (le_refl _)

/-- Every set bit at or after the scan start is covered by some run. -/
theorem runsFrom_complete (b : Nat → Bool) (N : Nat) :
    ∀ i j, i ≤ j → j < N → b j = true →
      ∃ r, r ∈ runsFrom b N i ∧ r.1 ≤ j ∧ j < r.1 + r.2 := by
  have H : ∀ k i, N - i ≤ k → ∀ j, i ≤ j → j < N → b j = true →
      ∃ r, r ∈ runsFrom b N i ∧ r.1 ≤ j ∧ j < r.1 + r.2 := by
    intro k
    induction k using Nat.strong_induction_on with
    | _ k ih =>
      intro i hk j hij hjN hbj
      have hi : i < N := by omega
      rw [runsFrom_eq, if_pos hi]
      by_cases hb : b i = true
      · rw [if_pos hb]
        by_cases hcov : j < i + runLen b N i
        · exact ⟨(i, runLen b N i), List.mem_cons_self _ _, hij, hcov⟩
        · have hL := runLen_pos b N i hi hb
          have hend := runLen_end b N i (by omega)
          have hne : j ≠ i + runLen b N i := by
            intro heq
            rcases hend with h1 | h2
            · omega
            · rw [← heq] at h2
              rw [h2] at hbj
              exact absurd hbj (by simp)
          have hge : i + runLen b N i + 1 ≤ j := by omega
          have hle := runLen_le b N i
          obtain ⟨r, hr, h1, h2⟩ :=
            ih (N - (i + runLen b N i + 1)) (by omega) _ (le_refl _) j hge hjN hbj
          exact ⟨r, List.mem_cons_of_mem _ hr, h1, h2⟩
      · rw [if_neg hb]
        have hne : i ≠ j := by
          intro heq
          rw [heq] at hb
          exact hb hbj
        obtain ⟨r, hr, h1, h2⟩ :=
          ih (N - (i + 1)) (by omega) (i + 1) (le_refl _) j (by omega) hjN hbj
        exact ⟨r, hr, h1, h2⟩
  intro i
  exact H (N - i) i (le_refl _)

/-! ## Release application lemmas -/

/-- Whether index `j` lies in run `r`. -/
def inRun (r : Nat × Nat) (j : Nat) : Bool :=
  decide (r.1 ≤ j ∧ j < r.1 + r.2)

theorem applyRuns_pointwise (ok : Nat × Nat → Bool) (rs : List (Nat × Nat))
    (rel : Nat → Bool) (j : Nat) :
    (applyRuns ok rs rel).1 j
      = (rel j || rs.any (fun r => ok r && inRun r j)) := by
  induction rs with
  | nil => simp [applyRuns]
  | cons r rs ih =>
    simp only [applyRuns, List.any_cons]
    by_cases hok : ok r = true
    · rw [if_pos hok]
      simp only [setRange, hok, Bool.true_and]
      by_cases hcov : r.1 ≤ j ∧ j < r.1 + r.2
      · rw [if_pos hcov]
        have : inRun r j = true := by simp [inRun, hcov]
        rw [this]
        simp
      · rw [if_neg hcov]
        have : inRun r j = false := by
          simp only [inRun, decide_eq_false_iff_not]
          exact hcov
        rw [ih, this]
        simp
    · rw [if_neg hok]
      rw [ih]
      simp only [Bool.and_eq_true] at hok ⊢
      have : (ok r && inRun r j) = false := by
        simp [Bool.eq_false_iff.mpr hok]
      rw [this]
      simp

theorem applyRuns_count (ok : Nat × Nat → Bool) (rs : List (Nat × Nat))
    (rel : Nat → Bool) :
    (applyRuns ok rs rel).2 = ((rs.filter ok).map (fun r => r.2)).sum := by
  induction rs with
  | nil => simp [applyRuns]
  | cons r rs ih =>
    simp only [applyRuns]
    by_cases hok : ok r = true
    · rw [if_pos hok]
      simp only [List.filter_cons, hok, if_pos, List.map_cons, List.sum_cons]
      omega
    · rw [if_neg hok]
      simp only [List.filter_cons]
      rw [Bool.eq_false_iff.mpr hok]
      simpa using ih

/-- Releasing well-separated runs of clear bits adds exactly the released
count to the popcount of the released bitmap. -/
theorem applyRuns_bcount (N : Nat) (ok : Nat × Nat → Bool)
    (rs : List (Nat × Nat)) (rel : Nat → Bool)
    (hbound : ∀ r, r ∈ rs → r.1 + r.2 ≤ N)
    (hclear : ∀ r, r ∈ rs → ∀ j, r.1 ≤ j → j < r.1 + r.2 → rel j = false)
    (hsep : List.Pairwise (fun r r' => r.1 + r.2 + 1 ≤ r'.1) rs) :
    bcount N (applyRuns ok rs rel).1 = bcount N rel + (applyRuns ok rs rel).2 := by
  induction rs with
  | nil => simp [applyRuns]
  | cons r rs ih =>
    have hsep' := List.Pairwise.of_cons hsep
    have hhead : ∀ r' ∈ rs, r.1 + r.2 + 1 ≤ r'.1 :=
      fun r' hr' => List.rel_of_pairwise_cons hsep hr'
    have ihh := ih (fun r' hr' => hbound r' (List.mem_cons_of_mem _ hr'))
      (fun r' hr' => hclear r' (List.mem_cons_of_mem _ hr')) hsep'
    simp only [applyRuns]
    by_cases hok : ok r = true
    · rw [if_pos hok]
      have hclr : ∀ j, r.1 ≤ j → j < r.1 + r.2 →
          (applyRuns ok rs rel).1 j = false := by
        intro j hj hjlt
        rw [applyRuns_pointwise]
        have h1 : rel j = false := hclear r (List.mem_cons_self _ _) j hj hjlt
        have h2 : rs.any (fun r' => ok r' && inRun r' j) = false := by
          rw [List.any_eq_false]
          intro r' hr'
          have := hhead r' hr'
          simp only [Bool.and_eq_true, not_and, inRun, decide_eq_true_eq]
          intro _
          omega
        rw [h1, h2]
        rfl
      rw [bcount_setRange N _ r.1 r.2 (hbound r (List.mem_cons_self _ _)) hclr]
      omega
    · rw [if_neg hok]
      exact ihh

/-- Two runs of a pairwise-separated list covering the same index are
equal. -/
theorem pairwise_cover_unique (rs : List (Nat × Nat))
    (hsep : List.Pairwise (fun r r' => r.1 + r.2 + 1 ≤ r'.1) rs)
    (r r' : Nat × Nat) (hr : r ∈ rs) (hr' : r' ∈ rs) (j : Nat)
    (hc : inRun r j = true) (hc' : inRun r' j = true) : r = r' := by
  induction rs with
  | nil => exact absurd hr (List.not_mem_nil r)
  | cons a l ih =>
    simp only [inRun, decide_eq_true_eq] at hc hc'
    rcases List.mem_cons.mp hr with rfl | hrl
    · rcases List.mem_cons.mp hr' with rfl | hr'l
      · rfl
      · have := List.rel_of_pairwise_cons hsep hr'l
        omega
    · rcases List.mem_cons.mp hr' with rfl | hr'l
      · have := List.rel_of_pairwise_cons hsep hrl
        omega
      · exact ih (List.Pairwise.of_cons hsep) hrl hr'l

/-- A fully set range contributes its whole length to `rangeCount`. -/
theorem rangeCount_of_allSet (b : Nat → Bool) (s len : Nat)
    (h : ∀ j, s ≤ j → j < s + len → b j = true) :
    rangeCount b s len = len := by
  unfold rangeCount
  have : (Finset.Ico s (s + len)).filter (fun i => b i = true)
      = Finset.Ico s (s + len) := by
    apply Finset.filter_true_of_mem
    intro i hi
    simp only [Finset.mem_Ico] at hi
    exact h i hi.1 hi.2
  rw [this, Nat.card_Ico]
  omega

/-- Soundness of the first-fit scan: a hit is in range and entirely
clear. -/
theorem findFitAux_sound (b : Nat → Bool) (N len : Nat) :
    ∀ fuel i r, findFitAux b N len fuel i = some r →
      i ≤ r ∧ r + len ≤ N ∧ ∀ j, r ≤ j → j < r + len → b j = false := by
  intro fuel
  induction fuel with
  | zero => intro i r h; exact absurd h (by simp [findFitAux])
  | succ fuel ih =>
    intro i r h
    simp only [findFitAux] at h
    by_cases hle : i + len ≤ N
    · rw [if_pos hle] at h
      by_cases hclear : allClear b i len = true
      · rw [if_pos hclear] at h
        cases h
        exact ⟨le_refl _, hle, fun j hj hjlt =>
          (allClear_iff b i len).mp hclear j hj hjlt⟩
      · rw [if_neg hclear] at h
        have := ih (i + 1) r h
        exact ⟨by omega, this.2.1, this.2.2⟩
    · rw [if_neg hle] at h
      exact absurd h (by simp)

theorem findFitFrom_sound (b : Nat → Bool) (N len r : Nat)
    (h : findFitFrom b N len 0 = some r) :
    r + len ≤ N ∧ ∀ j, r ≤ j → j < r + len → b j = false :=
  ((findFitAux_sound b N len (N + 1) 0 r h).2)

/-! ## Tracker operation lemmas -/

theorem get_used (N : Nat) (t : PageTracker) (len r : Nat) (fr : Bool)
    (t' : PageTracker) (h : t.get N len = some (r, fr, t')) :
    usedPages N t' = usedPages N t + len
      ∧ releasedPages N t' + rangeCount t.rel r len = releasedPages N t
      ∧ rangeCount t.rel r len ≤ len := by
  unfold PageTracker.get at h
  cases hf : findFitFrom t.alloc N len 0 with
  | none => rw [hf] at h; exact absurd h (by simp)
  | some r0 =>
    rw [hf] at h
    cases h
    obtain ⟨hle, hclear⟩ := findFitFrom_sound t.alloc N len r hf
    refine ⟨?_, ?_, rangeCount_le t.rel r len⟩
    · exact bcount_setRange N t.alloc r len hle (fun i h1 h2 => hclear i h1 h2)
    · exact bcount_clearRange N t.rel r len hle

theorem get_wf (N : Nat) (t : PageTracker) (len r : Nat) (fr : Bool)
    (t' : PageTracker) (h : t.get N len = some (r, fr, t'))
    (hwf : TWf N t) : TWf N t' := by
  unfold PageTracker.get at h
  cases hf : findFitFrom t.alloc N len 0 with
  | none => rw [hf] at h; exact absurd h (by simp)
  | some r0 =>
    rw [hf] at h
    cases h
    intro i hi hrel
    simp only [clearRange] at hrel
    simp only [setRange]
    by_cases hmem : r ≤ i ∧ i < r + len
    · rw [if_pos hmem] at hrel
      exact absurd hrel (by simp)
    · rw [if_neg hmem] at hrel
      rw [if_neg hmem]
      exact hwf i hi hrel

theorem put_used (N : Nat) (t : PageTracker) (s len : Nat)
    (hlegal : putLegal N t s len = true) :
    usedPages N (t.put s len) + len = usedPages N t
      ∧ releasedPages N (t.put s len) = releasedPages N t := by
  simp only [putLegal, Bool.and_eq_true, decide_eq_true_eq] at hlegal
  obtain ⟨⟨_, hle⟩, hset⟩ := hlegal
  constructor
  · have h := bcount_clearRange N t.alloc s len hle
    have hcnt : rangeCount t.alloc s len = len :=
      rangeCount_of_allSet t.alloc s len ((allSet_iff t.alloc s len).mp hset)
    unfold usedPages PageTracker.put
    simp only
    omega
  · rfl

theorem put_wf (N : Nat) (t : PageTracker) (s len : Nat) (hwf : TWf N t) :
    TWf N (t.put s len) := by
  intro i hi hrel
  simp only [PageTracker.put, clearRange] at hrel ⊢
  by_cases hmem : s ≤ i ∧ i < s + len
  · rw [if_pos hmem]
  · rw [if_neg hmem]
    exact hwf i hi hrel

/-- A free-and-unreleased run consists of pages that are free and not
released. -/
theorem freeUnreleasedRuns_free (N : Nat) (t : PageTracker) (r : Nat × Nat)
    (hr : r ∈ freeUnreleasedRuns N t) :
    ∀ j, r.1 ≤ j → j < r.1 + r.2 → t.alloc j = false ∧ t.rel j = false := by
  intro j hj hjlt
  have := runsFrom_run_true _ N 0 r hr j hj hjlt
  simp only [Bool.and_eq_true, Bool.not_eq_true'] at this
  exact this

theorem releaseFree_alloc (N : Nat) (t : PageTracker) (ok : Nat × Nat → Bool) :
    (t.releaseFree N ok).1.alloc = t.alloc := rfl

theorem releaseFree_calls (N : Nat) (t : PageTracker) (ok : Nat × Nat → Bool) :
    (t.releaseFree N ok).2.2 = freeUnreleasedRuns N t := rfl

/-- The newly released count is the popcount increase of the released
bitmap, and equals the total length of the successfully unmapped runs. -/
theorem releaseFree_count (N : Nat) (t : PageTracker) (ok : Nat × Nat → Bool) :
    releasedPages N (t.releaseFree N ok).1
        = releasedPages N t + (t.releaseFree N ok).2.1
      ∧ (t.releaseFree N ok).2.1
        = (((freeUnreleasedRuns N t).filter ok).map (fun r => r.2)).sum := by
  constructor
  · apply applyRuns_bcount N ok (freeUnreleasedRuns N t) t.rel
    · intro r hr
      exact (runsFrom_run_bounds _ N 0 r hr).1
    · intro r hr j h1 h2
      exact (freeUnreleasedRuns_free N t r hr j h1 h2).2
    · exact runsFrom_pairwise _ N 0
  · exact applyRuns_count ok (freeUnreleasedRuns N t) t.rel

theorem releaseFree_wf (N : Nat) (t : PageTracker) (ok : Nat × Nat → Bool)
    (hwf : TWf N t) : TWf N (t.releaseFree N ok).1 := by
  intro i hi hrel
  have hpt := applyRuns_pointwise ok (freeUnreleasedRuns N t) t.rel i
  simp only [PageTracker.releaseFree] at hrel ⊢
  rw [hpt] at hrel
  rcases Bool.or_eq_true_iff.mp hrel with hold | hnew
  · exact hwf i hi hold
  · obtain ⟨r, hr, hcov⟩ := List.any_eq_true.mp hnew
    simp only [Bool.and_eq_true, inRun, decide_eq_true_eq] at hcov
    exact (freeUnreleasedRuns_free N t r hr i hcov.2.1 hcov.2.2).1

/-- Released pages never exceed free pages on a well-formed tracker, and
used plus free pages always total `N`. -/
theorem tracker_counts (N : Nat) (t : PageTracker) (hwf : TWf N t) :
    usedPages N t + freePages N t = N ∧ releasedPages N t ≤ freePages N t := by
  constructor
  · exact bcount_add_compl N t.alloc
  · apply bcount_mono
    intro i hi hrel
    simp only [Bool.not_eq_true']
    exact hwf i hi hrel

/-! ## Claim C2 -/

/-- C2: if the injected unmap operation fails for a run during
`Tracker::release_free`, the released-bitmap bits for that run are left
clear, `released_pages` grows only by the lengths of the successfully
unmapped runs (nothing for the failing run), the pages of the failing
run remain free and mapped, the engine still issues the unmap calls for
all the remaining runs instead of aborting, and a subsequent
`release_free` whose unmap succeeds releases those pages. -/
theorem spec_C2 (N : Nat) (t : PageTracker) (ok : Nat × Nat → Bool)
    (r : Nat × Nat) (hr : r ∈ (t.releaseFree N ok).2.2)
    (hfail : ok r = false) :
    (t.releaseFree N ok).2.2 = freeUnreleasedRuns N t
    ∧ (∀ j, r.1 ≤ j → j < r.1 + r.2 →
        (t.releaseFree N ok).1.rel j = false
          ∧ (t.releaseFree N ok).1.alloc j = false)
    ∧ releasedPages N (t.releaseFree N ok).1
        = releasedPages N t
          + (((freeUnreleasedRuns N t).filter ok).map (fun q => q.2)).sum
    ∧ (∀ j, r.1 ≤ j → j < r.1 + r.2 →
        (((t.releaseFree N ok).1).releaseFree N (fun _ => true)).1.rel j
          = true) := by
  rw [releaseFree_calls] at hr
  have hsep := runsFrom_pairwise (fun i => !t.alloc i && !t.rel i) N 0
  have hclearfail : ∀ j, r.1 ≤ j → j < r.1 + r.2 →
      (t.releaseFree N ok).1.rel j = false ∧
      (t.releaseFree N ok).1.alloc j = false := by
    intro j hj hjlt
    have hfree := freeUnreleasedRuns_free N t r hr j hj hjlt
    constructor
    · show (applyRuns ok (freeUnreleasedRuns N t) t.rel).1 j = false
      rw [applyRuns_pointwise, hfree.2]
      simp only [Bool.false_or]
      rw [List.any_eq_false]
      intro r' hr'
      simp only [Bool.and_eq_true, not_and]
      intro hok' hcov'
      have heq : r = r' := pairwise_cover_unique _ hsep r r' hr hr' j
        (by simp only [inRun, decide_eq_true_eq]; omega) hcov'
      rw [← heq] at hok'
      rw [hfail] at hok'
      exact absurd hok' (by simp)
    · show t.alloc j = false
      exact hfree.1
  refine ⟨rfl, hclearfail, ?_, ?_⟩
  · have h := releaseFree_count N t ok
    rw [h.1, h.2]
  · intro j hj hjlt
    have hbound := runsFrom_run_bounds _ N 0 r hr
    have hjN : j < N := by omega
    have hmask : (!(t.releaseFree N ok).1.alloc j
        && !(t.releaseFree N ok).1.rel j) = true := by
      rw [(hclearfail j hj hjlt).1, (hclearfail j hj hjlt).2]
      rfl
    obtain ⟨r'', hr'', hc1, hc2⟩ :=
      runsFrom_complete
        (fun i => !(t.releaseFree N ok).1.alloc i
          && !(t.releaseFree N ok).1.rel i) N 0 j (Nat.zero_le j) hjN hmask
    show (applyRuns (fun _ => true)
        (freeUnreleasedRuns N (t.releaseFree N ok).1)
        (t.releaseFree N ok).1.rel).1 j = true
    rw [applyRuns_pointwise]
    have : (freeUnreleasedRuns N (t.releaseFree N ok).1).any
        (fun q => (fun _ => true) q && inRun q j) = true := by
      rw [List.any_eq_true]
      exact ⟨r'', hr'', by simp only [Bool.true_and, inRun,
        decide_eq_true_eq]; omega⟩
    rw [this]
    simp

/-- C2 witness: `N = 4`, page 1 allocated, free runs `(0,1)` and
`(2,2)`; the unmap of `(2,2)` fails. -/
theorem spec_C2_witness :
    ((2, 2) ∈ ((PageTracker.mk (fun i => decide (i = 1)) (fun _ => false)).releaseFree
        4 (fun r => decide (r.1 = 0))).2.2)
    ∧ ((fun r : Nat × Nat => decide (r.1 = 0)) (2, 2) = false)
    ∧ (((PageTracker.mk (fun i => decide (i = 1)) (fun _ => false)).releaseFree
        4 (fun r => decide (r.1 = 0))).2.2
          = freeUnreleasedRuns 4
              (PageTracker.mk (fun i => decide (i = 1)) (fun _ => false))
      ∧ (∀ j, 2 ≤ j → j < 2 + 2 →
          ((PageTracker.mk (fun i => decide (i = 1)) (fun _ => false)).releaseFree
            4 (fun r => decide (r.1 = 0))).1.rel j = false
          ∧ ((PageTracker.mk (fun i => decide (i = 1)) (fun _ => false)).releaseFree
            4 (fun r => decide (r.1 = 0))).1.alloc j = false)
      ∧ releasedPages 4
          ((PageTracker.mk (fun i => decide (i = 1)) (fun _ => false)).releaseFree
            4 (fun r => decide (r.1 = 0))).1
          = releasedPages 4
              (PageTracker.mk (fun i => decide (i = 1)) (fun _ => false))
            + (((freeUnreleasedRuns 4
                  (PageTracker.mk (fun i => decide (i = 1)) (fun _ => false))).filter
                (fun r => decide (r.1 = 0))).map (fun q => q.2)).sum
      ∧ (∀ j, 2 ≤ j → j < 2 + 2 →
          ((((PageTracker.mk (fun i => decide (i = 1)) (fun _ => false)).releaseFree
              4 (fun r => decide (r.1 = 0))).1).releaseFree 4
            (fun _ => true)).1.rel j = true)) :=
  ⟨by decide, by decide,
    spec_C2 4 (PageTracker.mk (fun i => decide (i = 1)) (fun _ => false))
      (fun r => decide (r.1 = 0)) (2, 2) (by decide) (by decide)⟩

/-! ## Claim C3 -/

/-- C3 counterexample: in the scenario the claim describes — `[A][B][C][D]`
with `A = [0,61)`, `B = [61,125)`, `C = [125,190)`, `D = [190,256)`;
`B` and `D` freed and then both successfully released; `A` and `C` then
freed — the second `release_free` does *not* issue a coalesced unmap
call for `C ∪ D = (125, 131)`: it issues `(0,61)` and `(125,65)` only,
because the already-released `D` is not walked again.  Consequently,
with the `A` unmap succeeding and the `C` unmap failing,
`released_pages = |A| + |B| + |D| = 191`, not `|A| + |B| = 125`. -/
theorem spec_C3_counterexample :
    ((125, 131) ∉ trRel2Claim.2.2)
    ∧ trRel2Claim.2.2 = [(0, 61), (125, 65)]
    ∧ releasedPages 256 trRel2Claim.1 = 191
    ∧ ¬ (releasedPages 256 trRel2Claim.1 = 61 + 64) := by
  refine ⟨by decide, by decide, by decide, by decide⟩

/-- C3 (amended): as in the shipped test `ReleasingRetainFailure`, the
unmap of `D` *fails* during the first `release_free` (so only `B` is
released, `released_pages = |B|`, `free_pages = |B| + |D|`); after `A`
and `C` are freed, the second `release_free` issues exactly one unmap
for `A` and one coalesced unmap for `C ∪ D` — `C` and `D` now form a
single maximal free-and-unreleased run — and when that coalesced unmap
fails while the `A` unmap succeeds, `released_pages = |A| + |B|` and
`free_pages = N`. -/
theorem spec_C3_amended :
    releasedPages 256 trRel1 = 64
    ∧ freePages 256 trRel1 = 64 + 66
    ∧ trRel2.2.2 = [(0, 61), (125, 131)]
    ∧ releasedPages 256 trRel2.1 = 61 + 64
    ∧ freePages 256 trRel2.1 = 256 := by
  refine ⟨by decide, by decide, by decide, by decide, by decide⟩

/-! ## Claim C8 -/

/-- An everywhere-false bitmap has no runs. -/
theorem runsFrom_of_false (b : Nat → Bool) (N i : Nat)
    (h : ∀ j, b j = false) : runsFrom b N i = [] := by
  rw [List.eq_nil_iff_forall_not_mem]
  intro r hr
  have hs := runsFrom_sound b N i r hr
  rw [h r.1] at hs
  exact absurd hs.2.2.1 (by simp)

/-- On the boundary configuration, first-fit finds the last page. -/
theorem findFit_lastFree (N : Nat) (h1 : 1 ≤ N) :
    findFitFrom (lastFree N).alloc N 1 0 = some (N - 1) := by
  have H : ∀ fuel i, i ≤ N - 1 → N - i ≤ fuel →
      findFitAux (lastFree N).alloc N 1 fuel i = some (N - 1) := by
    intro fuel
    induction fuel with
    | zero => intro i hi hf; omega
    | succ fuel ih =>
      intro i hi hf
      simp only [findFitAux]
      rw [if_pos (by omega)]
      by_cases hlast : i = N - 1
      · have hc : allClear (lastFree N).alloc i 1 = true := by
          simp only [allClear, lastFree, Bool.and_true]
          rw [hlast]
          simp only [Bool.not_eq_true']
          rw [decide_eq_false_iff_not]
          omega
        rw [if_pos hc, hlast]
      · have hc : ¬ allClear (lastFree N).alloc i 1 = true := by
          simp only [allClear, lastFree, Bool.and_true]
          simp only [Bool.not_eq_true', decide_eq_false_iff_not]
          omega
        rw [if_neg hc]
        exact ih (i + 1) (by omega) (by omega)
  exact H (N + 1) 0 (by omega) (by omega)

/-- On the boundary configuration, the free-run scan reports exactly the
run `(N-1, 1)`. -/
theorem runs_lastFree (N : Nat) (h1 : 1 ≤ N) :
    freeUnreleasedRuns N (lastFree N) = [(N - 1, 1)] := by
  have hmask : ∀ i, (!(lastFree N).alloc i && !(lastFree N).rel i)
      = decide (i + 1 = N) := by
    intro i
    simp only [lastFree, Bool.not_false, Bool.and_true]
    cases h : decide (i + 1 ≠ N) with
    | false =>
      simp only [decide_eq_false_iff_not, Decidable.not_not] at h
      simp [h]
    | true =>
      rw [decide_eq_true_eq] at h
      simp only [Bool.not_true]
      rw [eq_comm, decide_eq_false_iff_not]
      omega
  have H : ∀ b : Nat → Bool, (∀ i, b i = decide (i + 1 = N)) →
      runsFrom b N 0 = [(N - 1, 1)] := by
    intro b hm
    have hrl : runLen b N (N - 1) = 1 := by
      rw [runLen_eq, if_pos (by omega)]
      have hbi : b (N - 1) = true := by rw [hm]; rw [decide_eq_true_eq]; omega
      rw [if_pos hbi]
      rw [runLen_eq, if_neg (by omega)]
    have Hf : ∀ fuel i, i ≤ N - 1 → N - i ≤ fuel →
        runsFrom b N i = [(N - 1, 1)] := by
      intro fuel
      induction fuel with
      | zero => intro i hi hf; omega
      | succ fuel ih =>
        intro i hi hf
        rw [runsFrom_eq, if_pos (by omega)]
        by_cases hlast : i = N - 1
        · have hbi : b i = true := by rw [hm]; rw [decide_eq_true_eq]; omega
          rw [if_pos hbi, hlast, hrl]
          have hnil : runsFrom b N (N - 1 + 1 + 1) = [] := by
            rw [runsFrom_eq, if_neg (by omega)]
          rw [hnil]
        · have hbi : ¬ b i = true := by
            rw [hm]
            simp only [decide_eq_true_eq]
            omega
          rw [if_neg hbi]
          exact ih (i + 1) (by omega) (by omega)
    exact Hf (N + 1) 0 (by omega) (by omega)
  exact H _ hmask

/-- C8: on a tracker whose single free page sits at the last index
`N - 1` (all other pages allocated, nothing released), allocating
length 1 succeeds and returns page `N - 1` with `from_released = false`,
and `add_span_stats` reports exactly one free run of length 1
(`normal_length[1] = 1`) with zero counts everywhere else — in the
small histograms for every other length, in the returned histogram, and
in the large aggregates.  The embedding's bitmap scans are bounded at
bit `N` by construction, so no scan reads past the bitmap. -/
theorem spec_C8 (N maxSmall : Nat) (h1 : 1 ≤ N) (h2 : 2 ≤ maxSmall) :
    (∃ t', (lastFree N).get N 1 = some (N - 1, false, t'))
    ∧ (addSpanStats N maxSmall (lastFree N)).normalLength 1 = 1
    ∧ (∀ l, l ≠ 1 → (addSpanStats N maxSmall (lastFree N)).normalLength l = 0)
    ∧ (∀ l, (addSpanStats N maxSmall (lastFree N)).returnedLength l = 0)
    ∧ (addSpanStats N maxSmall (lastFree N)).largeSpans = 0
    ∧ (addSpanStats N maxSmall (lastFree N)).largeNormalPages = 0
    ∧ (addSpanStats N maxSmall (lastFree N)).largeReturnedPages = 0 := by
  have hruns := runs_lastFree N h1
  have hrel : freeReleasedRuns N (lastFree N) = [] := by
    apply runsFrom_of_false
    intro j
    simp [lastFree]
  refine ⟨?_, ?_, ?_, ?_, ?_, ?_, ?_⟩
  · refine ⟨⟨setRange (lastFree N).alloc (N - 1) 1,
      clearRange (lastFree N).rel (N - 1) 1⟩, ?_⟩
    unfold PageTracker.get
    rw [findFit_lastFree N h1]
    show some (N - 1, anySet (lastFree N).rel (N - 1) 1, _) = _
    have hany : anySet (lastFree N).rel (N - 1) 1 = false := by
      simp [anySet, lastFree]
    rw [hany]
  · simp only [addSpanStats, hruns]
    rw [if_pos (by omega)]
    simp [List.filter]
  · intro l hl
    simp only [addSpanStats, hruns]
    by_cases hsm : l < maxSmall
    · rw [if_pos hsm]
      have : decide ((1 : Nat) = l) = false := by
        rw [decide_eq_false_iff_not]
        omega
      simp [List.filter, this]
    · rw [if_neg hsm]
  · intro l
    simp only [addSpanStats, hrel]
    by_cases hsm : l < maxSmall
    · rw [if_pos hsm]
      simp [List.filter]
    · rw [if_neg hsm]
  · simp only [addSpanStats, hruns, hrel]
    have : decide (maxSmall ≤ 1) = false := by
      rw [decide_eq_false_iff_not]
      omega
    simp [List.filter, this]
  · simp only [addSpanStats, hruns]
    have : decide (maxSmall ≤ 1) = false := by
      rw [decide_eq_false_iff_not]
      omega
    simp [List.filter, this]
  · simp only [addSpanStats, hrel]
    simp [List.filter]

/-- C8 witness at the test configuration `N = 256`,
`maxSmall = kMaxPages = 64`. -/
theorem spec_C8_witness :
    (1 ≤ 256 ∧ 2 ≤ 64)
    ∧ ((∃ t', (lastFree 256).get 256 1 = some (255, false, t'))
      ∧ (addSpanStats 256 64 (lastFree 256)).normalLength 1 = 1
      ∧ (∀ l, l ≠ 1 → (addSpanStats 256 64 (lastFree 256)).normalLength l = 0)
      ∧ (∀ l, (addSpanStats 256 64 (lastFree 256)).returnedLength l = 0)
      ∧ (addSpanStats 256 64 (lastFree 256)).largeSpans = 0
      ∧ (addSpanStats 256 64 (lastFree 256)).largeNormalPages = 0
      ∧ (addSpanStats 256 64 (lastFree 256)).largeReturnedPages = 0) :=
  ⟨⟨by decide, by decide⟩, spec_C8 256 64 (by decide) (by decide)⟩

/-! ## Partial-count lemmas and run totals -/

theorem bcountIco_zero (N : Nat) (b : Nat → Bool) :
    bcountIco 0 N b = bcount N b := by
  unfold bcountIco bcount
  rw [Finset.range_eq_Ico]

theorem bcountIco_empty (a c : Nat) (b : Nat → Bool) (h : c ≤ a) :
    bcountIco a c b = 0 := by
  unfold bcountIco
  rw [Finset.Ico_eq_empty (by omega), Finset.filter_empty, Finset.card_empty]

theorem bcountIco_split (a m c : Nat) (b : Nat → Bool) (h1 : a ≤ m)
    (h2 : m ≤ c) : bcountIco a c b = bcountIco a m b + bcountIco m c b := by
  unfold bcountIco
  rw [← Finset.Ico_union_Ico_eq_Ico h1 h2, Finset.filter_union,
    Finset.card_union_of_disjoint]
  rw [Finset.disjoint_left]
  intro i hi hmem
  simp only [Finset.mem_filter, Finset.mem_Ico] at hi hmem
  omega

theorem bcountIco_all_true (a c : Nat) (b : Nat → Bool)
    (h : ∀ j, a ≤ j → j < c → b j = true) : bcountIco a c b = c - a := by
  unfold bcountIco
  rw [Finset.filter_true_of_mem, Nat.card_Ico]
  intro i hi
  simp only [Finset.mem_Ico] at hi
  exact h i hi.1 hi.2

theorem bcountIco_head_false (a c : Nat) (b : Nat → Bool) (h : b a = false) :
    bcountIco a c b = bcountIco (a + 1) c b := by
  by_cases hac : a < c
  · rw [bcountIco_split a (a + 1) c b (by omega) (by omega)]
    have : bcountIco a (a + 1) b = 0 := by
      unfold bcountIco
      convert Finset.card_empty
      rw [Finset.eq_empty_iff_forall_not_mem]
      intro i hi
      simp only [Finset.mem_filter, Finset.mem_Ico] at hi
      have : i = a := by omega
      rw [this, h] at hi
      exact absurd hi.2 (by simp)
    omega
  · rw [bcountIco_empty a c b (by omega), bcountIco_empty (a + 1) c b (by omega)]

/-- The runs of set bits partition the set bits: their lengths sum to
the popcount of the scanned region. -/
theorem bcount_runs (b : Nat → Bool) (N : Nat) :
    ∀ i, bcountIco i N b = ((runsFrom b N i).map (fun r => r.2)).sum := by
  have H : ∀ k i, N - i ≤ k →
      bcountIco i N b = ((runsFrom b N i).map (fun r => r.2)).sum := by
    intro k
    induction k using Nat.strong_induction_on with
    | _ k ih =>
      intro i hk
      rw [runsFrom_eq]
      by_cases hi : i < N
      · rw [if_pos hi]
        by_cases hb : b i = true
        · rw [if_pos hb]
          simp only [List.map_cons, List.sum_cons]
          have hL := runLen_pos b N i hi hb
          have hle := runLen_le b N i
          have h1 : bcountIco i N b
              = bcountIco i (i + runLen b N i) b
                + bcountIco (i + runLen b N i) N b := by
            apply bcountIco_split <;> omega
          have h2 : bcountIco i (i + runLen b N i) b = runLen b N i := by
            rw [bcountIco_all_true]
            · omega
            · intro j hj hjlt
              exact runLen_true b N i j hj hjlt
          have h3 : bcountIco (i + runLen b N i) N b
              = bcountIco (i + runLen b N i + 1) N b := by
            rcases runLen_end b N i (by omega) with hend | hend
            · rw [bcountIco_empty _ N b (by omega),
                bcountIco_empty _ N b (by omega)]
            · exact bcountIco_head_false _ N b hend
          have h4 := ih (N - (i + runLen b N i + 1)) (by omega)
            (i + runLen b N i + 1) (le_refl _)
          omega
        · rw [if_neg hb]
          have h3 : bcountIco i N b = bcountIco (i + 1) N b :=
            bcountIco_head_false i N b (by simpa using hb)
          have h4 := ih (N - (i + 1)) (by omega) (i + 1) (le_refl _)
          rw [h3, h4]
      · rw [if_neg hi]
        simp only [List.map_nil, List.sum_nil]
        exact bcountIco_empty i N b (by omega)
  intro i
  exact H (N - i) i (le_refl _)

/-- On a well-formed tracker the free pages split into free-and-mapped
plus released. -/
theorem free_split (N : Nat) (t : PageTracker) (hwf : TWf N t) :
    freePages N t = freeMappedPages N t + releasedPages N t := by
  unfold freePages freeMappedPages releasedPages bcount
  have hsplit : (Finset.range N).filter (fun i => (!t.alloc i) = true)
      = ((Finset.range N).filter (fun i => (!t.alloc i && !t.rel i) = true))
        ∪ ((Finset.range N).filter (fun i => t.rel i = true)) := by
    ext i
    simp only [Finset.mem_filter, Finset.mem_union, Finset.mem_range,
      Bool.and_eq_true, Bool.not_eq_true']
    constructor
    · rintro ⟨hi, ha⟩
      cases hr : t.rel i
      · exact Or.inl ⟨hi, ha, rfl⟩
      · exact Or.inr ⟨hi, rfl⟩
    · rintro (⟨hi, ha, _⟩ | ⟨hi, hr⟩)
      · exact ⟨hi, ha⟩
      · exact ⟨hi, hwf i hi hr⟩
  rw [hsplit, Finset.card_union_of_disjoint]
  rw [Finset.disjoint_left]
  intro i hi hmem
  simp only [Finset.mem_filter, Finset.mem_range, Bool.and_eq_true,
    Bool.not_eq_true'] at hi hmem
  rw [hi.2.2] at hmem
  exact absurd hmem.2 (by simp)

/-- A single `release_free` never releases more than the free-and-mapped
pages, and with an always-succeeding unmap it releases exactly them. -/
theorem releaseFree_count_bounds (N : Nat) (t : PageTracker)
    (ok : Nat × Nat → Bool) :
    (t.releaseFree N ok).2.1 ≤ freeMappedPages N t
      ∧ (t.releaseFree N (fun _ => true)).2.1 = freeMappedPages N t := by
  have hall : (((freeUnreleasedRuns N t)).map (fun r => r.2)).sum
      = freeMappedPages N t := by
    unfold freeMappedPages
    rw [← bcountIco_zero, bcount_runs]
    rfl
  constructor
  · rw [(releaseFree_count N t ok).2]
    rw [← hall]
    apply List.Sublist.sum_le_sum
    · exact List.Sublist.map _ (List.filter_sublist _)
    · intro x hx
      omega
  · rw [(releaseFree_count N t (fun _ => true)).2]
    rw [← hall]
    congr 1
    rw [List.filter_eq_self.mpr]
    intro a _
    rfl

/-! ## Release-loop lemmas -/

theorem releaseLoop_zero (N : Nat) (ok : Nat × Nat → Bool) :
    ∀ ts : List FEntry, releaseLoop N ok ts 0 = (ts, 0, []) := by
  intro ts
  cases ts with
  | nil => rfl
  | cons e es => simp [releaseLoop]

theorem releaseLoop_sum (N : Nat) (ok : Nat × Nat → Bool) :
    ∀ (ts : List FEntry) (target : Nat),
    ((releaseLoop N ok ts target).1.map (fun e => releasedPages N e.pt)).sum
      = (ts.map (fun e => releasedPages N e.pt)).sum
        + (releaseLoop N ok ts target).2.1 := by
  intro ts
  induction ts with
  | nil => intro target; simp [releaseLoop]
  | cons e es ih =>
    intro target
    by_cases ht : target = 0
    · simp [releaseLoop, ht]
    · simp only [releaseLoop, if_neg ht, List.map_cons, List.sum_cons]
      have h1 := (releaseFree_count N e.pt ok).1
      have h2 := ih (target - (e.pt.releaseFree N ok).2.1)
      simp only at h1 h2 ⊢
      omega

theorem releaseLoop_le (N : Nat) (ok : Nat × Nat → Bool) :
    ∀ (ts : List FEntry) (target : Nat),
    (releaseLoop N ok ts target).2.1
      ≤ (ts.map (fun e => freeMappedPages N e.pt)).sum := by
  intro ts
  induction ts with
  | nil => intro target; simp [releaseLoop]
  | cons e es ih =>
    intro target
    by_cases ht : target = 0
    · simp [releaseLoop, ht]
    · simp only [releaseLoop, if_neg ht, List.map_cons, List.sum_cons]
      have h1 := (releaseFree_count_bounds N e.pt ok).1
      have h2 := ih (target - (e.pt.releaseFree N ok).2.1)
      simp only at h1 h2 ⊢
      omega

/-- With an always-succeeding unmap the loop releases at least
`min target total` and exactly `total` when the target is at least the
total free-and-mapped pages. -/
theorem releaseLoop_always (N : Nat) :
    ∀ (ts : List FEntry) (target : Nat),
    min target ((ts.map (fun e => freeMappedPages N e.pt)).sum)
        ≤ (releaseLoop N (fun _ => true) ts target).2.1
      ∧ ((ts.map (fun e => freeMappedPages N e.pt)).sum ≤ target →
          (releaseLoop N (fun _ => true) ts target).2.1
            = (ts.map (fun e => freeMappedPages N e.pt)).sum) := by
  intro ts
  induction ts with
  | nil => intro target; simp [releaseLoop]
  | cons e es ih =>
    intro target
    by_cases ht : target = 0
    · subst ht
      constructor
      · simp [releaseLoop]
      · intro h
        rw [releaseLoop_zero]
        simp only [List.map_cons, List.sum_cons] at h ⊢
        omega
    · simp only [releaseLoop, if_neg ht, List.map_cons, List.sum_cons]
      have hc := (releaseFree_count_bounds N e.pt (fun _ => true)).2
      have ihh := ih (target - (e.pt.releaseFree N (fun _ => true)).2.1)
      simp only at hc ihh ⊢
      rw [hc] at ihh ⊢
      omega

/-- The loop stops selecting further trackers once the target is
reached, so it overshoots the target by less than one huge page. -/
theorem releaseLoop_overshoot (N : Nat) (ok : Nat × Nat → Bool) (hN : 0 < N) :
    ∀ (ts : List FEntry) (target : Nat),
    (releaseLoop N ok ts target).2.1 < target + N := by
  intro ts
  induction ts with
  | nil => intro target; simp [releaseLoop]; omega
  | cons e es ih =>
    intro target
    by_cases ht : target = 0
    · simp [releaseLoop, ht]
      omega
    · simp only [releaseLoop, if_neg ht]
      have h1 : (e.pt.releaseFree N ok).2.1 ≤ N := by
        have := (releaseFree_count_bounds N e.pt ok).1
        have h2 : freeMappedPages N e.pt ≤ N := bcount_le N _
        omega
      have h2 := ih (target - (e.pt.releaseFree N ok).2.1)
      simp only at h2 ⊢
      by_cases hce : (e.pt.releaseFree N ok).2.1 < target
      · omega
      · have h0 : target - (e.pt.releaseFree N ok).2.1 = 0 := by omega
        rw [h0, releaseLoop_zero]
        simp only
        omega

/-- Every tracker in the loop's output is a tracker of the input, either
untouched or with all (or some) of its free pages released; its used and
free pages are unchanged, and its released pages have not shrunk. -/
theorem releaseLoop_elems (N : Nat) (ok : Nat × Nat → Bool) :
    ∀ (ts : List FEntry) (target : Nat),
    ∀ x ∈ (releaseLoop N ok ts target).1, ∃ e ∈ ts,
      x.density = e.density ∧ x.donated = e.donated
        ∧ usedPages N x.pt = usedPages N e.pt
        ∧ freePages N x.pt = freePages N e.pt
        ∧ releasedPages N e.pt ≤ releasedPages N x.pt
        ∧ (TWf N e.pt → TWf N x.pt) := by
  intro ts
  induction ts with
  | nil => intro target x hx; simp [releaseLoop] at hx
  | cons e es ih =>
    intro target x hx
    by_cases ht : target = 0
    · simp only [releaseLoop, ht, if_pos] at hx
      exact ⟨x, hx, rfl, rfl, rfl, rfl, le_refl _, fun h => h⟩
    · simp only [releaseLoop, if_neg ht, List.mem_cons] at hx
      rcases hx with rfl | hx
      · refine ⟨e, List.mem_cons_self _ _, rfl, rfl, rfl, rfl, ?_, ?_⟩
        · have := (releaseFree_count N e.pt ok).1
          simp only
          omega
        · intro h
          exact releaseFree_wf N e.pt ok h
      · obtain ⟨e', he', h⟩ := ih (target - (e.pt.releaseFree N ok).2.1) x hx
        exact ⟨e', List.mem_cons_of_mem _ he', h⟩

/-- Most-empty-first processing preserves the release-priority
invariant. -/
theorem releaseLoop_downClosed (N : Nat) :
    ∀ (ts : List FEntry) (target : Nat),
    List.Sorted (usedLE N) ts → (∀ e ∈ ts, TWf N e.pt) →
    releasedDownClosed N ts →
    releasedDownClosed N (releaseLoop N (fun _ => true) ts target).1 := by
  intro ts
  induction ts with
  | nil => intro target _ _ _; simp [releaseLoop, releasedDownClosed]
  | cons e es ih =>
    intro target hsort hwf hdc
    by_cases ht : target = 0
    · simpa [releaseLoop, ht] using hdc
    · simp only [releaseLoop, if_neg ht]
      have hwf_e : TWf N e.pt := hwf e (List.mem_cons_self _ _)
      have hrel_full : releasedPages N (e.pt.releaseFree N (fun _ => true)).1
          = freePages N e.pt := by
        have h1 := (releaseFree_count N e.pt (fun _ => true)).1
        have h2 := (releaseFree_count_bounds N e.pt (fun _ => true)).2
        have h3 := free_split N e.pt hwf_e
        omega
      have ihq := ih (target - (e.pt.releaseFree N (fun _ => true)).2.1)
        (List.Sorted.of_cons hsort)
        (fun x hx => hwf x (List.mem_cons_of_mem _ hx))
        (fun a ha a' ha' => hdc a (List.mem_cons_of_mem _ ha)
          a' (List.mem_cons_of_mem _ ha'))
      intro a ha b hb hrel_a hfree_b hused
      simp only [List.mem_cons] at ha hb
      rcases ha with rfl | ha <;> rcases hb with rfl | hb
      · omega
      · exfalso
        obtain ⟨e', he', hd, hdon, hu, hfr, hrl, _⟩ :=
          releaseLoop_elems N (fun _ => true) es _ b hb
        have hes := List.rel_of_sorted_cons hsort e' he'
        unfold usedLE at hes
        have hae : usedPages N (e.pt.releaseFree N (fun _ => true)).1
            = usedPages N e.pt := rfl
        simp only at hu hused
        omega
      · show 0 < releasedPages N (e.pt.releaseFree N (fun _ => true)).1
        rw [hrel_full]
        exact hfree_b
      · exact ihq a ha b hb hrel_a hfree_b hused

/-! ## Claims C4, C5, C6 -/

theorem releasedDownClosed_perm (N : Nat) {ts ts' : List FEntry}
    (hp : ts.Perm ts') (h : releasedDownClosed N ts) :
    releasedDownClosed N ts' := by
  intro a ha b hb
  exact h a (hp.symm.subset ha) b (hp.symm.subset hb)

/-- One `release_pages` call preserves well-formedness of every tracker
and the release-priority invariant. -/
theorem releasePages_preserves (N : Nat) (f : Filler) (desired : Nat)
    (iv : SkipSubreleaseIntervals) (hist : List DemandSample)
    (hwf : ∀ e ∈ f.trackers, TWf N e.pt)
    (hdc : releasedDownClosed N f.trackers) :
    (∀ e ∈ (f.releasePages N desired iv hist (fun _ => true)).1.trackers,
      TWf N e.pt)
    ∧ releasedDownClosed N
        (f.releasePages N desired iv hist (fun _ => true)).1.trackers := by
  have hperm := List.perm_insertionSort (usedLE N) f.trackers
  have hwf_s : ∀ e ∈ List.insertionSort (usedLE N) f.trackers, TWf N e.pt :=
    fun e he => hwf e (hperm.subset he)
  have hdc_s : releasedDownClosed N (List.insertionSort (usedLE N) f.trackers) :=
    releasedDownClosed_perm N hperm.symm hdc
  have hsort := List.sorted_insertionSort (usedLE N) f.trackers
  constructor
  · intro e he
    simp only [Filler.releasePages] at he
    obtain ⟨e', he', _, _, _, _, _, hW⟩ :=
      releaseLoop_elems N (fun _ => true) _ _ e he
    exact hW (hwf_s e' he')
  · show releasedDownClosed N (releaseLoop N (fun _ => true) _ _).1
    exact releaseLoop_downClosed N _ _ hsort hwf_s hdc_s

/-- C4: the release engine subreleases candidates most-empty first: over
any sequence of `release_pages` calls (arbitrary desired counts,
skip-subrelease intervals and demand histories; always-succeeding
unmap), the release-priority invariant holds — whenever some tracker
has been subreleased, every candidate tracker (one that still has free
pages) with strictly fewer used pages has been subreleased as well. -/
theorem spec_C4 (N : Nat) (f : Filler)
    (calls : List (Nat × SkipSubreleaseIntervals × List DemandSample))
    (hwf : ∀ e ∈ f.trackers, TWf N e.pt)
    (hdc : releasedDownClosed N f.trackers) :
    releasedDownClosed N (releaseSeq N calls f).trackers := by
  induction calls generalizing f with
  | nil => exact hdc
  | cons c cs ih =>
    simp only [releaseSeq]
    have h := releasePages_preserves N f c.1 c.2.1 c.2.2 hwf hdc
    exact ih _ h.1 h.2

/-- C4 witness: two unreleased trackers with 2 and 1 used pages at
`N = 4`, one release call for 2 pages. -/
theorem spec_C4_witness :
    ((∀ e ∈ c4Filler.trackers, TWf 4 e.pt)
      ∧ releasedDownClosed 4 c4Filler.trackers)
    ∧ releasedDownClosed 4
        (releaseSeq 4 [(2, ⟨0, 0, 0⟩, [])] c4Filler).trackers :=
  ⟨⟨by decide, by decide⟩,
    spec_C4 4 c4Filler [(2, ⟨0, 0, 0⟩, [])] (by decide) (by decide)⟩

/-- C5 counterexample: `N = 8`, one tracker with 4 used and 4 free
pages; recent peak demand 6 with `peak_interval = 1`, so
`protected = 6 - 4 = 2` and `free - protected = 2`; yet
`release_pages(10)` releases all 4 free pages of the selected tracker
(tracker granularity), exceeding `free_pages - protected`. -/
theorem spec_C5_counterexample :
    (Filler.releasePages 8 cexFiller 10 ⟨1, 0, 0⟩ [⟨0, 6⟩]
        (fun _ => true)).2.1 = 4
    ∧ cexFiller.freePages 8
        - protectedPages ⟨1, 0, 0⟩ [⟨0, 6⟩] cexFiller.allocated = 2
    ∧ ¬ ((Filler.releasePages 8 cexFiller 10 ⟨1, 0, 0⟩ [⟨0, 6⟩]
          (fun _ => true)).2.1
        ≤ cexFiller.freePages 8
          - protectedPages ⟨1, 0, 0⟩ [⟨0, 6⟩] cexFiller.allocated) := by
  refine ⟨by decide, by decide, by decide⟩

/-- C5 (amended): with `peak_interval > 0` the protected count equals
the maximum demand observed over the peak window minus the current used
pages clamped at zero, and the short/long interval settings are
ignored; the engine's effective target is
`min(desired, free_pages - protected)` and it stops selecting trackers
once the target is reached, so the call releases at most `free_pages`
and overshoots the effective target by less than one huge page — but it
can exceed `free_pages - protected` itself, because a selected tracker
releases all of its free pages. -/
theorem spec_C5_amended (N : Nat) (f : Filler) (desired : Nat)
    (iv : SkipSubreleaseIntervals) (hist : List DemandSample)
    (ok : Nat × Nat → Bool) (hN : 0 < N) (hpeak : 0 < iv.peakInterval)
    (hcredit : f.unaccounted = 0)
    (hsum : (f.trackers.map (fun e => freeMappedPages N e.pt)).sum
      = f.freePages N) :
    (protectedPages iv hist f.allocated : Int)
        = max 0 ((maxOver iv.peakInterval (fun s => s.maxDemand) hist : Int)
            - (f.allocated : Int))
    ∧ (∀ s l, protectedPages ⟨iv.peakInterval, s, l⟩ hist f.allocated
        = protectedPages iv hist f.allocated)
    ∧ (f.releasePages N desired iv hist ok).2.1 ≤ f.freePages N
    ∧ (f.releasePages N desired iv hist ok).2.1
        < min desired (f.freePages N - protectedPages iv hist f.allocated)
          + N := by
  have hperm := List.perm_insertionSort (usedLE N) f.trackers
  have hsum_s : ((List.insertionSort (usedLE N) f.trackers).map
      (fun e => freeMappedPages N e.pt)).sum = f.freePages N := by
    rw [← hsum]
    exact List.Perm.sum_eq (hperm.map _)
  refine ⟨?_, ?_, ?_, ?_⟩
  · unfold protectedPages
    rw [if_pos hpeak]
    omega
  · intro s l
    unfold protectedPages
    simp only
    rw [if_pos hpeak, if_pos hpeak]
  · simp only [Filler.releasePages, hcredit]
    have := releaseLoop_le N ok (List.insertionSort (usedLE N) f.trackers)
      (min (desired - 0) (f.freePages N - protectedPages iv hist f.allocated))
    omega
  · simp only [Filler.releasePages, hcredit]
    have := releaseLoop_overshoot N ok hN
      (List.insertionSort (usedLE N) f.trackers)
      (min (desired - 0) (f.freePages N - protectedPages iv hist f.allocated))
    omega

/-- C5 witness: the counterexample configuration satisfies the amended
bounds. -/
theorem spec_C5_witness :
    ((0 : Nat) < 8 ∧ (0 : Nat) < 1 ∧ cexFiller.unaccounted = 0
      ∧ (cexFiller.trackers.map (fun e => freeMappedPages 8 e.pt)).sum
          = cexFiller.freePages 8)
    ∧ ((protectedPages ⟨1, 0, 0⟩ [⟨0, 6⟩] cexFiller.allocated : Int)
          = max 0 ((maxOver 1 (fun s => s.maxDemand) [⟨0, 6⟩] : Int)
              - (cexFiller.allocated : Int))
      ∧ (∀ s l, protectedPages ⟨1, s, l⟩ [⟨0, 6⟩] cexFiller.allocated
          = protectedPages ⟨1, 0, 0⟩ [⟨0, 6⟩] cexFiller.allocated)
      ∧ (cexFiller.releasePages 8 10 ⟨1, 0, 0⟩ [⟨0, 6⟩]
            (fun _ => true)).2.1 ≤ cexFiller.freePages 8
      ∧ (cexFiller.releasePages 8 10 ⟨1, 0, 0⟩ [⟨0, 6⟩]
            (fun _ => true)).2.1
          < min 10 (cexFiller.freePages 8
              - protectedPages ⟨1, 0, 0⟩ [⟨0, 6⟩] cexFiller.allocated)
            + 8) :=
  ⟨⟨by decide, by decide, by decide, by decide⟩,
    spec_C5_amended 8 cexFiller 10 ⟨1, 0, 0⟩ [⟨0, 6⟩] (fun _ => true)
      (by decide) (by decide) (by decide) (by decide)⟩

/-- C6 counterexample: `N = 8`, one tracker with 4 free pages, all
skip-subrelease intervals zero; `release_pages(1)` releases the whole
tracker's 4 free pages, not `min(desired, free_pages) = 1` (this is the
behavior `FillerTest.ReleasePrioritySparseAndDenseAllocs` pins:
`EXPECT_EQ(ReleasePages(Length(1)), kToBeReleased)` with
`kToBeReleased = 4`). -/
theorem spec_C6_counterexample :
    (Filler.releasePages 8 cexFiller 1 ⟨0, 0, 0⟩ [] (fun _ => true)).2.1 = 4
    ∧ min 1 (cexFiller.freePages 8) = 1
    ∧ ¬ ((Filler.releasePages 8 cexFiller 1 ⟨0, 0, 0⟩ []
          (fun _ => true)).2.1 = min 1 (cexFiller.freePages 8)) := by
  refine ⟨by decide, by decide, by decide⟩

/-- C6 (amended): with all skip-subrelease intervals zero the feature is
disabled — no pages are protected — and the call releases at least
`min(desired, free_pages)` and at most `free_pages`; when
`desired ≥ free_pages` it releases exactly `free_pages`.  It can exceed
`min(desired, free_pages)` because a selected tracker releases all of
its free pages. -/
theorem spec_C6_amended (N : Nat) (f : Filler) (desired : Nat)
    (iv : SkipSubreleaseIntervals) (hist : List DemandSample)
    (hz : iv.peakInterval = 0 ∧ iv.shortInterval = 0 ∧ iv.longInterval = 0)
    (hcredit : f.unaccounted = 0)
    (hsum : (f.trackers.map (fun e => freeMappedPages N e.pt)).sum
      = f.freePages N) :
    protectedPages iv hist f.allocated = 0
    ∧ min desired (f.freePages N)
        ≤ (f.releasePages N desired iv hist (fun _ => true)).2.1
    ∧ (f.releasePages N desired iv hist (fun _ => true)).2.1 ≤ f.freePages N
    ∧ (f.freePages N ≤ desired →
        (f.releasePages N desired iv hist (fun _ => true)).2.1
          = f.freePages N) := by
  have hprot : protectedPages iv hist f.allocated = 0 := by
    unfold protectedPages
    rw [if_neg (by omega), if_neg (by omega)]
  have hperm := List.perm_insertionSort (usedLE N) f.trackers
  have hsum_s : ((List.insertionSort (usedLE N) f.trackers).map
      (fun e => freeMappedPages N e.pt)).sum = f.freePages N := by
    rw [← hsum]
    exact List.Perm.sum_eq (hperm.map _)
  have halways := releaseLoop_always N (List.insertionSort (usedLE N) f.trackers)
    (min (desired - 0) (f.freePages N - protectedPages iv hist f.allocated))
  have hle := releaseLoop_le N (fun _ => true)
    (List.insertionSort (usedLE N) f.trackers)
    (min (desired - 0) (f.freePages N - protectedPages iv hist f.allocated))
  refine ⟨hprot, ?_, ?_, ?_⟩
  · simp only [Filler.releasePages, hcredit]
    omega
  · simp only [Filler.releasePages, hcredit]
    omega
  · intro hfd
    simp only [Filler.releasePages, hcredit]
    omega

/-- C6 witness: one tracker with 4 free pages at `N = 8`,
`desired = 10 ≥ free_pages = 4`: exactly 4 pages released. -/
theorem spec_C6_witness :
    (((0 : Nat) = 0 ∧ (0 : Nat) = 0 ∧ (0 : Nat) = 0)
      ∧ cexFiller.unaccounted = 0
      ∧ (cexFiller.trackers.map (fun e => freeMappedPages 8 e.pt)).sum
          = cexFiller.freePages 8)
    ∧ (protectedPages ⟨0, 0, 0⟩ [] cexFiller.allocated = 0
      ∧ min 10 (cexFiller.freePages 8)
          ≤ (cexFiller.releasePages 8 10 ⟨0, 0, 0⟩ [] (fun _ => true)).2.1
      ∧ (cexFiller.releasePages 8 10 ⟨0, 0, 0⟩ [] (fun _ => true)).2.1
          ≤ cexFiller.freePages 8
      ∧ (cexFiller.freePages 8 ≤ 10 →
          (cexFiller.releasePages 8 10 ⟨0, 0, 0⟩ [] (fun _ => true)).2.1
            = cexFiller.freePages 8)) :=
  ⟨⟨⟨by decide, by decide, by decide⟩, by decide, by decide⟩,
    spec_C6_amended 8 cexFiller 10 ⟨0, 0, 0⟩ []
      ⟨by decide, by decide, by decide⟩ (by decide) (by decide)⟩

/-! ## Filler-operation lemmas -/

/-- Decompose a list at a valid index. -/
theorem list_decomp {α : Type} (l : List α) (i : Nat) (e : α)
    (he : l[i]? = some e) :
    l = l.take i ++ e :: l.drop (i + 1) := by
  obtain ⟨hlt, hget⟩ := List.getElem?_eq_some.mp he
  conv_lhs => rw [← List.take_append_drop i l]
  rw [List.drop_eq_getElem_cons hlt, hget]

theorem sum_map_set (g : FEntry → Nat) (l : List FEntry) (i : Nat)
    (a e : FEntry) (he : l[i]? = some e) :
    ((l.set i a).map g).sum + g e = (l.map g).sum + g a := by
  obtain ⟨hlt, _⟩ := List.getElem?_eq_some.mp he
  rw [List.set_eq_take_cons_drop a hlt]
  conv_rhs => rw [list_decomp l i e he]
  simp only [List.map_append, List.sum_append, List.map_cons, List.sum_cons]
  omega

theorem mem_set_or {α : Type} (l : List α) (i : Nat) (a x : α)
    (hx : x ∈ l.set i a) : x = a ∨ x ∈ l := by
  rcases List.mem_or_eq_of_mem_set hx with h | h
  · exact Or.inr h
  · exact Or.inl h

/-- A successful bucket scan returns an index whose entry matched and
whose allocation succeeded. -/
theorem findInBucket_sound (N len : Nat) (d : Bool) (b : Bucket) :
    ∀ (ts : List FEntry) (q : Nat × Nat × Bool × PageTracker),
    findInBucket N len d b ts = some q →
    ∃ e, ts[q.1]? = some e ∧ entryMatches N d b e = true
      ∧ e.pt.get N len = some (q.2.1, q.2.2.1, q.2.2.2) := by
  intro ts
  induction ts with
  | nil => intro q h; exact absurd h (by simp [findInBucket])
  | cons e es ih =>
    intro q h
    simp only [findInBucket] at h
    by_cases hm : entryMatches N d b e = true
    · rw [if_pos hm] at h
      cases hg : e.pt.get N len with
      | some r =>
        rw [hg] at h
        cases h
        exact ⟨e, by simp, hm, by rw [hg]⟩
      | none =>
        rw [hg] at h
        cases hrec : findInBucket N len d b es with
        | none => rw [hrec] at h; exact absurd h (by simp)
        | some q' =>
          rw [hrec] at h
          cases h
          obtain ⟨e', he', hm', hg'⟩ := ih q' hrec
          exact ⟨e', by simpa using he', hm', hg'⟩
    · rw [if_neg hm] at h
      cases hrec : findInBucket N len d b es with
      | none => rw [hrec] at h; exact absurd h (by simp)
      | some q' =>
        rw [hrec] at h
        cases h
        obtain ⟨e', he', hm', hg'⟩ := ih q' hrec
        exact ⟨e', by simpa using he', hm', hg'⟩

/-- A successful bucket-order search went through one of the searched
buckets. -/
theorem searchBuckets_sound (N len : Nat) (d : Bool) (ts : List FEntry) :
    ∀ (bs : List Bucket) (q : Nat × Nat × Bool × PageTracker),
    searchBuckets N len d ts bs = some q →
    ∃ b ∈ bs, findInBucket N len d b ts = some q := by
  intro bs
  induction bs with
  | nil => intro q h; exact absurd h (by simp [searchBuckets])
  | cons b bs ih =>
    intro q h
    simp only [searchBuckets] at h
    cases hf : findInBucket N len d b ts with
    | some q' =>
      rw [hf] at h
      cases h
      exact ⟨b, List.mem_cons_self _ _, hf⟩
    | none =>
      rw [hf] at h
      obtain ⟨b', hb', hfb'⟩ := ih q h
      exact ⟨b', List.mem_cons_of_mem _ hb', hfb'⟩

theorem releaseLoop_length (N : Nat) (ok : Nat × Nat → Bool) :
    ∀ (ts : List FEntry) (target : Nat),
    (releaseLoop N ok ts target).1.length = ts.length := by
  intro ts
  induction ts with
  | nil => intro target; simp [releaseLoop]
  | cons e es ih =>
    intro target
    by_cases ht : target = 0
    · simp [releaseLoop, ht]
    · simp only [releaseLoop, if_neg ht, List.length_cons]
      rw [ih]

theorem releaseLoop_sum_used (N : Nat) (ok : Nat × Nat → Bool) :
    ∀ (ts : List FEntry) (target : Nat),
    ((releaseLoop N ok ts target).1.map (fun e => usedPages N e.pt)).sum
      = (ts.map (fun e => usedPages N e.pt)).sum := by
  intro ts
  induction ts with
  | nil => intro target; simp [releaseLoop]
  | cons e es ih =>
    intro target
    by_cases ht : target = 0
    · simp [releaseLoop, ht]
    · simp only [releaseLoop, if_neg ht, List.map_cons, List.sum_cons]
      rw [ih]
      rfl

theorem sum_map_split {α : Type} (l : List α) (g g1 g2 : α → Nat)
    (h : ∀ x ∈ l, g x = g1 x + g2 x) :
    (l.map g).sum = (l.map g1).sum + (l.map g2).sum := by
  induction l with
  | nil => simp
  | cons a l ih =>
    simp only [List.map_cons, List.sum_cons]
    rw [h a (List.mem_cons_self _ _),
      ih (fun x hx => h x (List.mem_cons_of_mem _ hx))]
    omega

theorem sum_map_const {α : Type} (l : List α) (g : α → Nat) (c : Nat)
    (h : ∀ x ∈ l, g x = c) : (l.map g).sum = l.length * c := by
  induction l with
  | nil => simp
  | cons a l ih =>
    simp only [List.map_cons, List.sum_cons, List.length_cons]
    rw [h a (List.mem_cons_self _ _),
      ih (fun x hx => h x (List.mem_cons_of_mem _ hx))]
    ring

theorem elem_le_sum (l : List FEntry) (g : FEntry → Nat)
    (e : FEntry) (he : e ∈ l) : g e ≤ (l.map g).sum := by
  induction l with
  | nil => exact absurd he (List.not_mem_nil e)
  | cons a l ih =>
    simp only [List.map_cons, List.sum_cons]
    rcases List.mem_cons.mp he with rfl | hmem
    · omega
    · have := ih hmem
      omega

/-- `try_get` preserves the filler's coherence. -/
theorem tryGet_inv (N : Nat) (f : Filler) (len : Nat) (d : Bool)
    (r : Filler × Nat × Nat × Bool)
    (h : f.tryGet N len d = some r) (hf : FInv N f) :
    FInv N r.1 := by
  unfold Filler.tryGet at h
  cases hs : searchBuckets N len d f.trackers (allocOrder d) with
  | none => rw [hs] at h; exact absurd h (by simp)
  | some q =>
    rw [hs] at h
    simp only [Option.some_bind] at h
    cases he : f.trackers[q.1]? with
    | none => rw [he] at h; exact absurd h (by simp)
    | some e =>
      rw [he] at h
      simp only [Option.map_some', Option.some_inj] at h
      obtain ⟨i, p', fr', pt'⟩ := q
      rw [← h]
      obtain ⟨b, _, hfind⟩ := searchBuckets_sound N len d f.trackers _ _ hs
      obtain ⟨e0, he0, _, hget⟩ := findInBucket_sound N len d b f.trackers _ hfind
      simp only at he he0 hget ⊢
      rw [he] at he0
      cases he0
      obtain ⟨hwf, hsz, hal, hun⟩ := hf
      have hmem : e ∈ f.trackers := List.getElem?_mem he
      have hwfe := hwf e hmem
      have hu := get_used N e.pt len p' fr' pt' hget
      have hW := get_wf N e.pt len p' fr' pt' hget hwfe
      have hsetu := sum_map_set (fun x => usedPages N x.pt) f.trackers i
        ⟨pt', e.density, false⟩ e he
      have hsetr := sum_map_set (fun x => releasedPages N x.pt) f.trackers i
        ⟨pt', e.density, false⟩ e he
      have hrel_le : releasedPages N e.pt
          ≤ (f.trackers.map (fun x => releasedPages N x.pt)).sum :=
        elem_le_sum _ (fun x => releasedPages N x.pt) e hmem
      refine ⟨?_, ?_, ?_, ?_⟩
      · intro x hx
        rcases mem_set_or _ _ _ _ hx with rfl | hmem'
        · exact hW
        · exact hwf x hmem'
      · simpa [List.length_set] using hsz
      · simp only at hsetu ⊢
        omega
      · simp only at hsetr ⊢
        have hrc := hu.2.1
        omega

/-- `contribute` preserves the filler's coherence, given a well-formed
tracker. -/
theorem contribute_inv (N : Nat) (f : Filler) (pt : PageTracker)
    (donated d : Bool) (hpt : TWf N pt) (hf : FInv N f) :
    FInv N (f.contribute N pt donated d) := by
  obtain ⟨hwf, hsz, hal, hun⟩ := hf
  refine ⟨?_, ?_, ?_, ?_⟩
  · intro x hx
    simp only [Filler.contribute, List.mem_append, List.mem_singleton] at hx
    rcases hx with hx | rfl
    · exact hwf x hx
    · exact hpt
  · simp [Filler.contribute, hsz]
  · simp only [Filler.contribute, List.map_append, List.sum_append,
      List.map_cons, List.sum_cons, List.map_nil, List.sum_nil]
    omega
  · simp only [Filler.contribute, List.map_append, List.sum_append,
      List.map_cons, List.sum_cons, List.map_nil, List.sum_nil]
    omega

/-- `put` preserves the filler's coherence. -/
theorem putRange_inv (N : Nat) (f : Filler) (i s len : Nat) (g : Filler)
    (h : f.putRange N i s len = some g) (hf : FInv N f) : FInv N g := by
  unfold Filler.putRange at h
  cases he : f.trackers[i]? with
  | none => rw [he] at h; exact absurd h (by simp)
  | some e =>
    rw [he] at h
    simp only [Option.some_bind] at h
    by_cases hlegal : putLegal N e.pt s len = true
    · rw [if_pos hlegal] at h
      obtain ⟨hwf, hsz, hal, hun⟩ := hf
      have hmem : e ∈ f.trackers := List.getElem?_mem he
      have hwfe := hwf e hmem
      have hpu := put_used N e.pt s len hlegal
      have hW := put_wf N e.pt s len hwfe
      have hused_le : usedPages N e.pt
          ≤ (f.trackers.map (fun x => usedPages N x.pt)).sum :=
        elem_le_sum _ (fun x => usedPages N x.pt) e hmem
      have hrel_le : releasedPages N e.pt
          ≤ (f.trackers.map (fun x => releasedPages N x.pt)).sum :=
        elem_le_sum _ (fun x => releasedPages N x.pt) e hmem
      obtain ⟨hlt, _⟩ := List.getElem?_eq_some.mp he
      by_cases hempty : usedPages N (e.pt.put s len) = 0
      · rw [if_pos hempty] at h
        cases h
        have hdecomp := list_decomp f.trackers i e he
        refine ⟨?_, ?_, ?_, ?_⟩
        · intro x hx
          simp only [List.mem_append] at hx
          apply hwf
          rcases hx with hx | hx
          · exact List.mem_of_mem_take hx
          · exact List.mem_of_mem_drop hx
        · simp only [List.length_append, List.length_take, List.length_drop]
          rw [hsz]
          have : i ⊓ f.trackers.length = i := by omega
          omega
        · have h1 : (f.trackers.map (fun x => usedPages N x.pt)).sum
              = ((f.trackers.take i).map (fun x => usedPages N x.pt)).sum
                + usedPages N e.pt
                + ((f.trackers.drop (i + 1)).map
                    (fun x => usedPages N x.pt)).sum := by
            conv_lhs => rw [hdecomp]
            simp only [List.map_append, List.sum_append, List.map_cons,
              List.sum_cons]
            omega
          simp only [List.map_append, List.sum_append]
          omega
        · have h1 : (f.trackers.map (fun x => releasedPages N x.pt)).sum
              = ((f.trackers.take i).map (fun x => releasedPages N x.pt)).sum
                + releasedPages N e.pt
                + ((f.trackers.drop (i + 1)).map
                    (fun x => releasedPages N x.pt)).sum := by
            conv_lhs => rw [hdecomp]
            simp only [List.map_append, List.sum_append, List.map_cons,
              List.sum_cons]
            omega
          have h2 : releasedPages N (e.pt.put s len) = releasedPages N e.pt :=
            hpu.2
          simp only [List.map_append, List.sum_append]
          omega
      · rw [if_neg hempty] at h
        cases h
        have hsetu := sum_map_set (fun x => usedPages N x.pt) f.trackers i
          ⟨e.pt.put s len, e.density, e.donated⟩ e he
        have hsetr := sum_map_set (fun x => releasedPages N x.pt) f.trackers i
          ⟨e.pt.put s len, e.density, e.donated⟩ e he
        refine ⟨?_, ?_, ?_, ?_⟩
        · intro x hx
          rcases mem_set_or _ _ _ _ hx with rfl | hmem'
          · exact hW
          · exact hwf x hmem'
        · simpa [List.length_set] using hsz
        · simp only at hsetu ⊢
          omega
        · simp only at hsetr ⊢
          have : releasedPages N (e.pt.put s len) = releasedPages N e.pt :=
            hpu.2
          omega
    · rw [if_neg hlegal] at h
      exact absurd h (by simp)

/-- `release_pages` preserves the filler's coherence. -/
theorem releasePages_inv (N : Nat) (f : Filler) (desired : Nat)
    (iv : SkipSubreleaseIntervals) (hist : List DemandSample)
    (ok : Nat × Nat → Bool) (hf : FInv N f) :
    FInv N (f.releasePages N desired iv hist ok).1 := by
  obtain ⟨hwf, hsz, hal, hun⟩ := hf
  have hperm := List.perm_insertionSort (usedLE N) f.trackers
  refine ⟨?_, ?_, ?_, ?_⟩
  · intro x hx
    simp only [Filler.releasePages] at hx
    obtain ⟨e', he', _, _, _, _, _, hW⟩ :=
      releaseLoop_elems N ok _ _ x hx
    exact hW (hwf e' (hperm.subset he'))
  · simp only [Filler.releasePages]
    rw [releaseLoop_length, hperm.length_eq]
    exact hsz
  · simp only [Filler.releasePages]
    rw [releaseLoop_sum_used]
    rw [List.Perm.sum_eq (hperm.map _)]
    exact hal
  · simp only [Filler.releasePages]
    rw [releaseLoop_sum]
    rw [List.Perm.sum_eq (hperm.map _)]
    omega

/-- Every legal operation preserves the filler's coherence. -/
theorem applyFOp_inv (N : Nat) (f : Filler) (op : FOp) (g : Filler)
    (h : applyFOp N f op = some g) (hf : FInv N f) : FInv N g := by
  cases op with
  | tryget len d =>
    simp only [applyFOp, Option.map_eq_some'] at h
    obtain ⟨q, hq, rfl⟩ := h
    exact tryGet_inv N f len d q hq hf
  | contribute len donated d =>
    simp only [applyFOp] at h
    cases hg : PageTracker.empty.get N len with
    | none => rw [hg] at h; exact absurd h (by simp)
    | some r =>
      rw [hg] at h
      cases h
      apply contribute_inv N f _ donated d _ hf
      exact get_wf N PageTracker.empty len r.1 r.2.1 r.2.2 (by rw [hg])
        (fun i _ h => absurd h (by simp [PageTracker.empty]))
  | putRange i s len => exact putRange_inv N f i s len g h hf
  | release desired iv hist ok =>
    simp only [applyFOp, Option.some_inj] at h
    rw [← h]
    exact releasePages_inv N f desired iv hist ok hf

theorem runFOps_inv (N : Nat) :
    ∀ (ops : List FOp) (f g : Filler),
    runFOps N ops f = some g → FInv N f → FInv N g := by
  intro ops
  induction ops with
  | nil =>
    intro f g h hf
    simp only [runFOps, Option.some_inj] at h
    rw [← h]
    exact hf
  | cons op ops ih =>
    intro f g h hf
    simp only [runFOps] at h
    cases ha : applyFOp N f op with
    | none => rw [ha] at h; exact absurd h (by simp)
    | some f' =>
      rw [ha] at h
      exact ih f' g h (applyFOp_inv N f op f' ha hf)

theorem FInv_empty (N : Nat) : FInv N Filler.empty := by
  refine ⟨?_, rfl, rfl, rfl⟩
  intro e he
  exact absurd he (List.not_mem_nil e)

/-! ## Claim C7 -/

theorem mem_set_of_ne (l : List FEntry) (i : Nat) (a x : FEntry)
    (hx : x ∈ l) (hne : ∀ hi : i < l.length, l[i] ≠ x) : x ∈ l.set i a := by
  obtain ⟨j, hj, hxj⟩ := List.mem_iff_getElem.mp hx
  by_cases hij : i = j
  · subst hij
    exact absurd hxj (hne hj)
  · apply List.mem_iff_getElem.mpr
    refine ⟨j, by simpa [List.length_set] using hj, ?_⟩
    rw [List.getElem_set_ne hij]
    exact hxj

/-- A dense `try_get` never selects a tracker in the donated bucket, and
demotes nothing donated: every donated entry survives the allocation
unchanged. -/
theorem tryGet_dense_not_donated (N : Nat) (f : Filler) (len : Nat)
    (r : Filler × Nat × Nat × Bool) (h : f.tryGet N len true = some r) :
    (∃ e, f.trackers[r.2.1]? = some e ∧ e.donated = false
      ∧ bucketOf N e ≠ Bucket.donated)
    ∧ (∀ e ∈ f.trackers, e.donated = true → e ∈ r.1.trackers) := by
  unfold Filler.tryGet at h
  cases hs : searchBuckets N len true f.trackers (allocOrder true) with
  | none => rw [hs] at h; exact absurd h (by simp)
  | some q =>
    rw [hs] at h
    simp only [Option.some_bind] at h
    cases he : f.trackers[q.1]? with
    | none => rw [he] at h; exact absurd h (by simp)
    | some e =>
      rw [he] at h
      simp only [Option.map_some', Option.some_inj] at h
      obtain ⟨b, hb, hfind⟩ := searchBuckets_sound N len true f.trackers _ _ hs
      obtain ⟨e0, he0, hmatch, _⟩ := findInBucket_sound N len true b f.trackers _ hfind
      rw [he] at he0
      cases he0
      have hbne : b ≠ Bucket.donated := by
        simp only [allocOrder, if_pos] at hb
        intro hcon
        rw [hcon] at hb
        simp at hb
      simp only [entryMatches, Bool.and_eq_true, beq_iff_eq] at hmatch
      have hbucket : bucketOf N e = b := hmatch.1
      have hdon : e.donated = false := by
        by_contra hcon
        rw [Bool.not_eq_false] at hcon
        have : bucketOf N e = Bucket.donated := by
          unfold bucketOf
          rw [if_pos hcon]
        rw [this] at hbucket
        exact hbne hbucket.symm
      constructor
      · rw [← h]
        simp only
        exact ⟨e, he, hdon, by rw [hbucket]; exact hbne⟩
      · intro x hx hxdon
        rw [← h]
        simp only
        apply mem_set_of_ne f.trackers q.1 _ x hx
        intro hi hcon
        obtain ⟨_, hget⟩ := List.getElem?_eq_some.mp he
        rw [hget] at hcon
        rw [hcon] at hdon
        rw [hxdon] at hdon
        exact absurd hdon (by simp)

/-- C7: a request with dense access density is never satisfied from a
donated tracker — the dense search order does not include the donated
bucket, so the selected tracker is not in the donated state — and over
any further sequence of dense requests every donated tracker survives
untouched, so a donated huge page never allocated from by a sparse
request can still be handed back whole. -/
theorem spec_C7 (N : Nat) (f : Filler) (len : Nat) (lens : List Nat)
    (h : (f.tryGet N len true).isSome = true) :
    (∃ e, f.trackers[((f.tryGet N len true).getD
          (Filler.empty, 0, 0, false)).2.1]? = some e
      ∧ e.donated = false ∧ bucketOf N e ≠ Bucket.donated)
    ∧ (∀ e ∈ f.trackers, e.donated = true →
        e ∈ (runDense N lens ((f.tryGet N len true).getD
          (Filler.empty, 0, 0, false)).1).trackers) := by
  cases hg : f.tryGet N len true with
  | none => rw [hg] at h; exact absurd h (by simp)
  | some r =>
    simp only [Option.getD_some]
    obtain ⟨hsel, hpersist⟩ := tryGet_dense_not_donated N f len r hg
    refine ⟨hsel, ?_⟩
    intro e he hdon
    have hstart := hpersist e he hdon
    clear hsel hpersist hg h he
    revert hstart
    generalize r.1 = f1
    intro hstart
    induction lens generalizing f1 with
    | nil => exact hstart
    | cons l ls ih =>
      simp only [runDense]
      cases hg1 : f1.tryGet N l true with
      | none => exact ih f1 hstart
      | some r1 =>
        obtain ⟨_, hpersist1⟩ := tryGet_dense_not_donated N f1 l r1 hg1
        exact ih r1.1 (hpersist1 e hstart hdon)

/-- C7 witness: a donated sparse tracker plus a regular dense tracker;
the dense request is served by the regular one. -/
theorem spec_C7_witness :
    ((Filler.tryGet 4 ⟨[⟨⟨fun i => decide (i < 3), fun _ => false⟩, false, true⟩,
        ⟨⟨fun i => decide (i < 2), fun _ => false⟩, true, false⟩],
        2, 5, 0, 0⟩ 1 true).isSome = true)
    ∧ ((∃ e, ([⟨⟨fun i => decide (i < 3), fun _ => false⟩, false, true⟩,
          ⟨⟨fun i => decide (i < 2), fun _ => false⟩, true, false⟩] :
            List FEntry)[((Filler.tryGet 4 ⟨[⟨⟨fun i => decide (i < 3),
              fun _ => false⟩, false, true⟩,
              ⟨⟨fun i => decide (i < 2), fun _ => false⟩, true, false⟩],
              2, 5, 0, 0⟩ 1 true).getD
              (Filler.empty, 0, 0, false)).2.1]? = some e
        ∧ e.donated = false ∧ bucketOf 4 e ≠ Bucket.donated)
      ∧ (∀ e ∈ ([⟨⟨fun i => decide (i < 3), fun _ => false⟩, false, true⟩,
          ⟨⟨fun i => decide (i < 2), fun _ => false⟩, true, false⟩] :
            List FEntry), e.donated = true →
          e ∈ (runDense 4 [1] ((Filler.tryGet 4 ⟨[⟨⟨fun i => decide (i < 3),
              fun _ => false⟩, false, true⟩,
              ⟨⟨fun i => decide (i < 2), fun _ => false⟩, true, false⟩],
              2, 5, 0, 0⟩ 1 true).getD
              (Filler.empty, 0, 0, false)).1).trackers)) :=
  ⟨by decide,
    spec_C7 4 ⟨[⟨⟨fun i => decide (i < 3), fun _ => false⟩, false, true⟩,
      ⟨⟨fun i => decide (i < 2), fun _ => false⟩, true, false⟩],
      2, 5, 0, 0⟩ 1 [1] (by decide)⟩

/-! ## Claim C1 -/

/-- C1: for every sequence of legal operations (allocations, frees,
releases) from the empty filler, at every operation boundary each
tracker satisfies `used_pages + free_pages = N` and
`released_pages ≤ free_pages`, and the filler's aggregate statistics —
system, used, unmapped, and free bytes, computed from its incrementally
maintained counters — equal the sums of the per-tracker quantities. -/
theorem spec_C1 (N : Nat) (ops : List FOp)
    (h : (runFOps N ops Filler.empty).isSome = true) :
    (∀ e ∈ ((runFOps N ops Filler.empty).getD Filler.empty).trackers,
        usedPages N e.pt + freePages N e.pt = N
        ∧ releasedPages N e.pt ≤ freePages N e.pt)
    ∧ (((runFOps N ops Filler.empty).getD Filler.empty).stats N).systemBytes
        = ((runFOps N ops Filler.empty).getD
            Filler.empty).trackers.length * N * pageBytes
    ∧ (((runFOps N ops Filler.empty).getD Filler.empty).stats N).usedBytes
        = (((runFOps N ops Filler.empty).getD Filler.empty).trackers.map
            (fun e => usedPages N e.pt)).sum * pageBytes
    ∧ (((runFOps N ops Filler.empty).getD Filler.empty).stats N).unmappedBytes
        = (((runFOps N ops Filler.empty).getD Filler.empty).trackers.map
            (fun e => releasedPages N e.pt)).sum * pageBytes
    ∧ (((runFOps N ops Filler.empty).getD Filler.empty).stats N).freeBytes
        = (((runFOps N ops Filler.empty).getD Filler.empty).trackers.map
            (fun e => freeMappedPages N e.pt)).sum * pageBytes := by
  cases hrun : runFOps N ops Filler.empty with
  | none => rw [hrun] at h; exact absurd h (by simp)
  | some g =>
    simp only [Option.getD_some]
    obtain ⟨hwf, hsz, hal, hun⟩ := runFOps_inv N ops Filler.empty g hrun
      (FInv_empty N)
    have hper : ∀ e ∈ g.trackers,
        usedPages N e.pt + freePages N e.pt = N
        ∧ releasedPages N e.pt ≤ freePages N e.pt :=
      fun e he => tracker_counts N e.pt (hwf e he)
    refine ⟨hper, ?_, ?_, ?_, ?_⟩
    · simp only [Filler.stats, hsz]
    · simp only [Filler.stats, hal]
    · simp only [Filler.stats, hun]
    · simp only [Filler.stats]
      have hNsum : (g.trackers.map
          (fun e => usedPages N e.pt + freePages N e.pt)).sum
            = g.trackers.length * N :=
        sum_map_const _ _ N (fun e he => (hper e he).1)
      have hsplit2 : (g.trackers.map
          (fun e => usedPages N e.pt + freePages N e.pt)).sum
            = (g.trackers.map (fun e => usedPages N e.pt)).sum
              + (g.trackers.map (fun e => freePages N e.pt)).sum :=
        sum_map_split _ _ _ _ (fun e _ => rfl)
      have hsplit3 : (g.trackers.map (fun e => freePages N e.pt)).sum
            = (g.trackers.map (fun e => freeMappedPages N e.pt)).sum
              + (g.trackers.map (fun e => releasedPages N e.pt)).sum :=
        sum_map_split _ _ _ _ (fun e he => free_split N e.pt (hwf e he))
      congr 1
      rw [hsz, hal, hun]
      omega

/-- C1 witness: a contribute, a fit allocation, a free and a release at
`N = 4`. -/
theorem spec_C1_witness :
    ((runFOps 4 [FOp.contribute 2 false false, FOp.tryget 1 false,
        FOp.putRange 0 0 1, FOp.release 5 ⟨0, 0, 0⟩ [] (fun _ => true)]
        Filler.empty).isSome = true)
    ∧ ((∀ e ∈ ((runFOps 4 [FOp.contribute 2 false false, FOp.tryget 1 false,
        FOp.putRange 0 0 1, FOp.release 5 ⟨0, 0, 0⟩ [] (fun _ => true)]
        Filler.empty).getD Filler.empty).trackers,
        usedPages 4 e.pt + freePages 4 e.pt = 4
        ∧ releasedPages 4 e.pt ≤ freePages 4 e.pt)
    ∧ (((runFOps 4 [FOp.contribute 2 false false, FOp.tryget 1 false,
        FOp.putRange 0 0 1, FOp.release 5 ⟨0, 0, 0⟩ [] (fun _ => true)]
        Filler.empty).getD Filler.empty).stats 4).systemBytes
        = ((runFOps 4 [FOp.contribute 2 false false, FOp.tryget 1 false,
            FOp.putRange 0 0 1, FOp.release 5 ⟨0, 0, 0⟩ [] (fun _ => true)]
            Filler.empty).getD
            Filler.empty).trackers.length * 4 * pageBytes
    ∧ (((runFOps 4 [FOp.contribute 2 false false, FOp.tryget 1 false,
        FOp.putRange 0 0 1, FOp.release 5 ⟨0, 0, 0⟩ [] (fun _ => true)]
        Filler.empty).getD Filler.empty).stats 4).usedBytes
        = (((runFOps 4 [FOp.contribute 2 false false, FOp.tryget 1 false,
            FOp.putRange 0 0 1, FOp.release 5 ⟨0, 0, 0⟩ [] (fun _ => true)]
            Filler.empty).getD Filler.empty).trackers.map
            (fun e => usedPages 4 e.pt)).sum * pageBytes
    ∧ (((runFOps 4 [FOp.contribute 2 false false, FOp.tryget 1 false,
        FOp.putRange 0 0 1, FOp.release 5 ⟨0, 0, 0⟩ [] (fun _ => true)]
        Filler.empty).getD Filler.empty).stats 4).unmappedBytes
        = (((runFOps 4 [FOp.contribute 2 false false, FOp.tryget 1 false,
            FOp.putRange 0 0 1, FOp.release 5 ⟨0, 0, 0⟩ [] (fun _ => true)]
            Filler.empty).getD Filler.empty).trackers.map
            (fun e => releasedPages 4 e.pt)).sum * pageBytes
    ∧ (((runFOps 4 [FOp.contribute 2 false false, FOp.tryget 1 false,
        FOp.putRange 0 0 1, FOp.release 5 ⟨0, 0, 0⟩ [] (fun _ => true)]
        Filler.empty).getD Filler.empty).stats 4).freeBytes
        = (((runFOps 4 [FOp.contribute 2 false false, FOp.tryget 1 false,
            FOp.putRange 0 0 1, FOp.release 5 ⟨0, 0, 0⟩ [] (fun _ => true)]
            Filler.empty).getD Filler.empty).trackers.map
            (fun e => freeMappedPages 4 e.pt)).sum * pageBytes) :=
  ⟨by decide,
    spec_C1 4 [FOp.contribute 2 false false, FOp.tryget 1 false,
      FOp.putRange 0 0 1, FOp.release 5 ⟨0, 0, 0⟩ [] (fun _ => true)]
      (by decide)⟩

/-! ## Claim C10 -/

/-- Characterization of a `put` that empties its tracker. -/
theorem putRange_empty_eq (N : Nat) (f : Filler) (i s len : Nat) (e : FEntry)
    (he : f.trackers[i]? = some e) (hlegal : putLegal N e.pt s len = true)
    (hempty : usedPages N (e.pt.put s len) = 0) :
    f.putRange N i s len = some
      { trackers := f.trackers.take i ++ f.trackers.drop (i + 1)
        sizeHP := f.sizeHP - 1
        allocated := f.allocated - len
        unmapped := f.unmapped - releasedPages N (e.pt.put s len)
        unaccounted := f.unaccounted
          + (if 0 < releasedPages N (e.pt.put s len) then
              freeMappedPages N (e.pt.put s len) else 0) } := by
  unfold Filler.putRange
  rw [he]
  simp only [Option.some_bind]
  rw [if_pos hlegal, if_pos hempty]

/-- C10: pages that become unmapped as a side effect of `put` emptying a
tracker that still had released pages are credited to
`unmapping_unaccounted_`, and the next `release_pages` call returns that
credit: it can return a nonzero count while issuing no unmap calls,
leaving every tracker untouched (up to the engine's resorting) and
`unmapped_pages` unchanged. -/
theorem spec_C10 (N : Nat) (f : Filler) (i s len : Nat) (e : FEntry)
    (he : f.trackers[i]? = some e) (hlegal : putLegal N e.pt s len = true)
    (hempty : usedPages N (e.pt.put s len) = 0)
    (hrel : 0 < releasedPages N (e.pt.put s len))
    (desired : Nat) (iv : SkipSubreleaseIntervals) (hist : List DemandSample)
    (ok : Nat × Nat → Bool) (hdes : 0 < desired)
    (hcap : desired ≤ f.unaccounted + freeMappedPages N (e.pt.put s len)) :
    ((f.putRange N i s len).getD Filler.empty).unaccounted
        = f.unaccounted + freeMappedPages N (e.pt.put s len)
    ∧ (((f.putRange N i s len).getD Filler.empty).releasePages N desired iv
        hist ok).2.1
        = ((f.putRange N i s len).getD Filler.empty).unaccounted
    ∧ 0 < (((f.putRange N i s len).getD Filler.empty).releasePages N desired
        iv hist ok).2.1
    ∧ (((f.putRange N i s len).getD Filler.empty).releasePages N desired iv
        hist ok).2.2 = []
    ∧ (((f.putRange N i s len).getD Filler.empty).releasePages N desired iv
        hist ok).1.unmapped
        = ((f.putRange N i s len).getD Filler.empty).unmapped
    ∧ (((f.putRange N i s len).getD Filler.empty).releasePages N desired iv
        hist ok).1.trackers
        = List.insertionSort (usedLE N)
            ((f.putRange N i s len).getD Filler.empty).trackers := by
  rw [putRange_empty_eq N f i s len e he hlegal hempty]
  simp only [Option.getD_some]
  rw [if_pos hrel]
  have hcredit : desired
      - (f.unaccounted + freeMappedPages N (e.pt.put s len)) = 0 := by
    omega
  constructor
  · rfl
  · simp only [Filler.releasePages, hcredit, Nat.zero_min, releaseLoop_zero,
      Nat.add_zero]
    all_goals refine ⟨?_, ?_, ?_, ?_, ?_⟩ <;> first | rfl | omega | trivial

/-- C10 witness: `N = 4`, one tracker with page 0 used, pages 2 and 3
released; freeing page 0 empties it, unmapping page 1 out-of-band; the
next `release_pages(1)` returns 1 with no unmap call. -/
theorem spec_C10_witness :
    ((⟨[⟨⟨fun i => decide (i = 0), fun i => decide (i = 2 ∨ i = 3)⟩,
          false, false⟩], 1, 1, 2, 0⟩ : Filler).trackers[0]?
        = some ⟨⟨fun i => decide (i = 0), fun i => decide (i = 2 ∨ i = 3)⟩,
          false, false⟩)
    ∧ putLegal 4 (⟨fun i => decide (i = 0),
        fun i => decide (i = 2 ∨ i = 3)⟩ : PageTracker) 0 1 = true
    ∧ usedPages 4 ((⟨fun i => decide (i = 0),
        fun i => decide (i = 2 ∨ i = 3)⟩ : PageTracker).put 0 1) = 0
    ∧ 0 < releasedPages 4 ((⟨fun i => decide (i = 0),
        fun i => decide (i = 2 ∨ i = 3)⟩ : PageTracker).put 0 1)
    ∧ (0 : Nat) < 1
    ∧ 1 ≤ 0 + freeMappedPages 4 ((⟨fun i => decide (i = 0),
        fun i => decide (i = 2 ∨ i = 3)⟩ : PageTracker).put 0 1)
    ∧ ((((⟨[⟨⟨fun i => decide (i = 0), fun i => decide (i = 2 ∨ i = 3)⟩,
          false, false⟩], 1, 1, 2, 0⟩ : Filler).putRange 4 0 0 1).getD
          Filler.empty).releasePages 4 1 ⟨0, 0, 0⟩ []
          (fun _ => true)).2.1
        = (((⟨[⟨⟨fun i => decide (i = 0), fun i => decide (i = 2 ∨ i = 3)⟩,
          false, false⟩], 1, 1, 2, 0⟩ : Filler).putRange 4 0 0 1).getD
          Filler.empty).unaccounted :=
  ⟨rfl, by decide, by decide, by decide, by decide, by decide,
    (spec_C10 4 ⟨[⟨⟨fun i => decide (i = 0), fun i => decide (i = 2 ∨ i = 3)⟩,
        false, false⟩], 1, 1, 2, 0⟩ 0 0 1
      ⟨⟨fun i => decide (i = 0), fun i => decide (i = 2 ∨ i = 3)⟩,
        false, false⟩ rfl (by decide) (by decide) (by decide) 1 ⟨0, 0, 0⟩ []
      (fun _ => true) (by decide) (by decide)).2.1⟩

/-! ## Claim C9 -/

theorem bcount_false (N : Nat) : bcount N (fun _ => false) = 0 := by
  unfold bcount
  convert Finset.card_empty
  rw [Finset.eq_empty_iff_forall_not_mem]
  intro i hi
  simp only [Finset.mem_filter] at hi
  exact absurd hi.2 (by simp)

theorem bcount_indicator (N a b : Nat) (hbN : b ≤ N) :
    bcount N (fun i => decide (a ≤ i ∧ i < b)) = b - a := by
  unfold bcount
  have : (Finset.range N).filter
      (fun i => (fun i => decide (a ≤ i ∧ i < b)) i = true) = Finset.Ico a b := by
    ext i
    simp only [Finset.mem_filter, Finset.mem_range, Finset.mem_Ico,
      decide_eq_true_eq]
    constructor
    · rintro ⟨_, h2⟩; exact h2
    · intro h
      exact ⟨by omega, h⟩
  rw [this, Nat.card_Ico]

/-- C9: after allocating a range, freeing it, and releasing it, a new
allocation of the same length and density is served from the same
tracker, at the same (released) pages, and reports
`from_released = true`. -/
theorem spec_C9 (N n1 n2 : Nat) (d : Bool) (h1 : 0 < n1) (h2 : 0 < n2)
    (hsum : n1 + n2 ≤ N) :
    ∃ r, (roundTripFiller N n1 n2 d).tryGet N n1 d = some r
      ∧ r.2.1 = 0 ∧ r.2.2.1 = 0 ∧ r.2.2.2 = true := by
  set t : PageTracker := ⟨fun i => decide (i < n1 + n2), fun _ => false⟩
    with ht
  set t' : PageTracker := t.put 0 n1 with ht'
  -- counting facts for the initial and freed tracker
  have hA : usedPages N t = n1 + n2 := by
    unfold usedPages
    rw [bcount_congr N _ (fun i => decide (0 ≤ i ∧ i < n1 + n2))]
    · rw [bcount_indicator N 0 (n1 + n2) hsum]
      omega
    · intro i _
      simp [ht]
  have hB : releasedPages N t = 0 := bcount_false N
  have halloc' : ∀ i, t'.alloc i = decide (n1 ≤ i ∧ i < n1 + n2) := by
    intro i
    simp only [ht', ht, PageTracker.put, clearRange]
    by_cases hi : 0 ≤ i ∧ i < 0 + n1
    · rw [if_pos hi]
      have : ¬ (n1 ≤ i ∧ i < n1 + n2) := by omega
      rw [eq_comm, decide_eq_false_iff_not]
      exact this
    · rw [if_neg hi]
      rcases Nat.lt_or_ge i (n1 + n2) with hlt | hge
      · have hn1 : n1 ≤ i := by omega
        simp [hlt, hn1]
      · have : ¬ i < n1 + n2 := by omega
        simp [this]
  have hE : usedPages N t' = n2 := by
    unfold usedPages
    rw [bcount_congr N _ (fun i => decide (n1 ≤ i ∧ i < n1 + n2))]
    · rw [bcount_indicator N n1 (n1 + n2) hsum]
      omega
    · intro i _
      exact halloc' i
  have hrel' : t'.rel = t.rel := rfl
  have hrelc' : releasedPages N t' = 0 := bcount_false N
  have hfree' : freePages N t' = N - n2 := by
    have := bcount_add_compl N t'.alloc
    unfold usedPages at hE
    unfold freePages
    omega
  have hfm' : freeMappedPages N t' = N - n2 := by
    unfold freeMappedPages
    rw [bcount_congr N _ (fun i => !t'.alloc i)]
    · exact hfree'
    · intro i _
      show (!t'.alloc i && !t.rel i) = !t'.alloc i
      show (!t'.alloc i && !false) = !t'.alloc i
      simp
  -- legality of the free
  have hlegal : putLegal N t 0 n1 = true := by
    unfold putLegal
    simp only [Bool.and_eq_true, decide_eq_true_eq]
    refine ⟨⟨h1, by omega⟩, ?_⟩
    rw [allSet_iff]
    intro j _ hj
    show decide (j < n1 + n2) = true
    rw [decide_eq_true_eq]
    omega
  -- the filler after contribute
  have hf0 : Filler.empty.contribute N t false d
      = ⟨[⟨t, d, false⟩], 1, usedPages N t, releasedPages N t, 0⟩ := by
    simp [Filler.contribute, Filler.empty]
  -- the filler after the free
  have hf1 : ((Filler.empty.contribute N t false d).putRange N 0 0 n1).getD
      Filler.empty = ⟨[⟨t', d, false⟩], 1, usedPages N t - n1, releasedPages N t, 0⟩ := by
    rw [hf0]
    unfold Filler.putRange
    simp only [List.getElem?_cons_zero, Option.some_bind]
    rw [if_pos hlegal]
    have hne : ¬ usedPages N (PageTracker.put t 0 n1) = 0 := by
      rw [← ht']
      omega
    rw [if_neg hne]
    simp only [Option.getD_some, List.set_cons_zero]
  -- the filler after the free, with the counters evaluated
  have hf1' : ((Filler.empty.contribute N t false d).putRange N 0 0 n1).getD
      Filler.empty = ⟨[⟨t', d, false⟩], 1, n2, 0, 0⟩ := by
    rw [hf1, hA, hB]
    congr 1
    omega
  -- the tracker after the release
  set t'' : PageTracker := (t'.releaseFree N (fun _ => true)).1 with ht''
  have hcount : (t'.releaseFree N (fun _ => true)).2.1 = N - n2 := by
    rw [(releaseFree_count_bounds N t' (fun _ => true)).2, hfm']
  have hrel'' : releasedPages N t'' = N - n2 := by
    rw [ht'', (releaseFree_count N t' (fun _ => true)).1, hrelc', hcount]
    omega
  have hfree'' : freePages N t'' = N - n2 := hfree'
  have hused'' : usedPages N t'' = n2 := hE
  -- the release target is positive
  have hprot : protectedPages ⟨0, 0, 0⟩ [] n2 = 0 := by
    unfold protectedPages
    rw [if_neg (by decide), if_neg (by decide)]
  have htarget : ¬ min (N - 0)
      ((⟨[⟨t', d, false⟩], 1, n2, 0, 0⟩ : Filler).freePages N
        - protectedPages ⟨0, 0, 0⟩ [] n2) = 0 := by
    rw [hprot]
    unfold Filler.freePages
    simp only
    omega
  -- the filler after the release has the single fully released tracker
  have hRT : (roundTripFiller N n1 n2 d).trackers = [⟨t'', d, false⟩] := by
    show ((((Filler.empty.contribute N t false d).putRange N 0 0 n1).getD
      Filler.empty).releasePages N N ⟨0, 0, 0⟩ []
      (fun _ => true)).1.trackers = _
    rw [hf1']
    show ((⟨[⟨t', d, false⟩], 1, n2, 0, 0⟩ : Filler).releasePages N N
      ⟨0, 0, 0⟩ [] (fun _ => true)).1.trackers = _
    unfold Filler.releasePages
    simp only
    have hsort1 : List.insertionSort (usedLE N) [(⟨t', d, false⟩ : FEntry)]
        = [⟨t', d, false⟩] := rfl
    rw [hsort1]
    simp only [releaseLoop, if_neg htarget]
  -- the released page 0 is marked released again
  have hrel0 : t''.rel 0 = true := by
    show (applyRuns (fun _ => true) (freeUnreleasedRuns N t') t'.rel).1 0 = true
    rw [applyRuns_pointwise]
    have hmask0 : (fun i => !t'.alloc i && !t'.rel i) 0 = true := by
      simp only [halloc' 0]
      have : ¬ (n1 ≤ 0 ∧ 0 < n1 + n2) := by omega
      rw [decide_eq_false_iff_not.mpr this]
      rfl
    obtain ⟨r, hrmem, hc1, hc2⟩ := runsFrom_complete
      (fun i => !t'.alloc i && !t'.rel i) N 0 0 (le_refl 0) (by omega) hmask0
    have hany : (freeUnreleasedRuns N t').any
        (fun q => (fun _ => true) q && inRun q 0) = true := by
      rw [List.any_eq_true]
      refine ⟨r, hrmem, ?_⟩
      simp only [Bool.true_and, inRun, decide_eq_true_eq]
      omega
    rw [hany]
    simp
  -- the re-allocation succeeds at page 0 and reports from_released
  have hfit : findFitFrom t''.alloc N n1 0 = some 0 := by
    show findFitFrom t'.alloc N n1 0 = some 0
    unfold findFitFrom
    simp only [Nat.sub_zero, findFitAux]
    rw [if_pos (by omega : 0 + n1 ≤ N)]
    have hc2 : allClear t'.alloc 0 n1 = true := by
      rw [allClear_iff]
      intro j _ hj
      rw [halloc' j]
      rw [decide_eq_false_iff_not]
      omega
    rw [if_pos hc2]
  have hget : t''.get N n1 = some (0, true,
      ⟨setRange t''.alloc 0 n1, clearRange t''.rel 0 n1⟩) := by
    unfold PageTracker.get
    rw [hfit]
    show some (0, anySet t''.rel 0 n1, _) = _
    have hany : anySet t''.rel 0 n1 = true := by
      rw [anySet_iff]
      exact ⟨0, le_refl 0, by omega, hrel0⟩
    rw [hany]
  -- the single tracker is in the fully released bucket
  have hbucket : bucketOf N (⟨t'', d, false⟩ : FEntry) = Bucket.fullyReleased := by
    unfold bucketOf
    rw [if_neg (by simp)]
    rw [if_neg (by simp only; omega)]
    rw [if_pos (by simp only; omega)]
  have hmatch_fr : entryMatches N d Bucket.fullyReleased
      (⟨t'', d, false⟩ : FEntry) = true := by
    unfold entryMatches
    rw [hbucket]
    simp
  have hmatch_rp : entryMatches N d Bucket.regularPartial
      (⟨t'', d, false⟩ : FEntry) = false := by
    unfold entryMatches
    rw [hbucket]
    simp
  have hmatch_pr : entryMatches N d Bucket.partialReleased
      (⟨t'', d, false⟩ : FEntry) = false := by
    unfold entryMatches
    rw [hbucket]
    simp
  have hfind_rp : findInBucket N n1 d Bucket.regularPartial
      [(⟨t'', d, false⟩ : FEntry)] = none := by
    simp [findInBucket, hmatch_rp]
  have hfind_pr : findInBucket N n1 d Bucket.partialReleased
      [(⟨t'', d, false⟩ : FEntry)] = none := by
    simp [findInBucket, hmatch_pr]
  have hfind_fr : findInBucket N n1 d Bucket.fullyReleased
      [(⟨t'', d, false⟩ : FEntry)] = some (0, 0, true,
        ⟨setRange t''.alloc 0 n1, clearRange t''.rel 0 n1⟩) := by
    simp only [findInBucket, hmatch_fr, if_pos]
    rw [hget]
  have hsearch : searchBuckets N n1 d [(⟨t'', d, false⟩ : FEntry)]
      (allocOrder d) = some (0, 0, true,
        ⟨setRange t''.alloc 0 n1, clearRange t''.rel 0 n1⟩) := by
    cases d with
    | false =>
      simp only [allocOrder, Bool.false_eq_true, if_neg, if_false]
      simp only [searchBuckets, hfind_rp, hfind_pr, hfind_fr]
    | true =>
      simp only [allocOrder, if_pos]
      simp only [searchBuckets, hfind_rp, hfind_pr, hfind_fr]
  have hfin : ∃ X, (roundTripFiller N n1 n2 d).tryGet N n1 d
      = some (X, 0, 0, true) := by
    unfold Filler.tryGet
    rw [hRT, hsearch]
    simp only [Option.some_bind, List.getElem?_cons_zero, Option.map_some']
    exact ⟨_, rfl⟩
  obtain ⟨X, hX⟩ := hfin
  exact ⟨(X, 0, 0, true), hX, rfl, rfl, rfl⟩

/-- C9 witness at `N = 4`, two one-page allocations, sparse density. -/
theorem spec_C9_witness :
    ((0 : Nat) < 1 ∧ (0 : Nat) < 1 ∧ 1 + 1 ≤ 4)
    ∧ (∃ r, (roundTripFiller 4 1 1 false).tryGet 4 1 false = some r
      ∧ r.2.1 = 0 ∧ r.2.2.1 = 0 ∧ r.2.2.2 = true) :=
  ⟨⟨by decide, by decide, by decide⟩,
    spec_C9 4 1 1 false (by decide) (by decide) (by decide)⟩

end HPFiller
